import Mathlib

/-!
Shallow embedding of `scripts/add_week.py` (repository
Mgeeeeee/TheTruthAboutRecords): a single-pass pipeline that parses a weekly
markdown article, rewrites raster asset references to WebP, upserts an
article record into a JSON document, and syncs the document into an HTML
page's inline script block.

Python strings are modelled as Lean `String` (a structure over `List Char`);
machine-level details that the script never touches (Unicode case folding
beyond ASCII, exotic Unicode whitespace categories accepted by `str.strip`
and `\s`, Unicode digits accepted by `\d`) are modelled with their ASCII
behaviour.  Fallible functions (the script's `die`, which raises
`SystemExit(1)`) are modelled with `Except String`, the error value carrying
the diagnostic message; `.error` corresponds to a nonzero process exit.
-/

namespace AddWeek

/-- ASCII whitespace as recognised by Python's `str.strip()` / regex `\s`. -/
def isPyWS (c : Char) : Bool :=
  c == ' ' || c == '\t' || c == '\n' || c == '\x0d' || c == Char.ofNat 11 || c == Char.ofNat 12

/-- Strip characters satisfying `p` from both ends of a character list. -/
def stripWhile (p : Char → Bool) (l : List Char) : List Char :=
  ((l.dropWhile p).reverse.dropWhile p).reverse

/-- Python `s.strip()` (ASCII whitespace). -/
def pyStrip (s : String) : String :=
  String.mk (stripWhile isPyWS s.data)

/-- Python `s.lstrip()` (ASCII whitespace). -/
def pyLstrip (s : String) : String :=
  String.mk (s.data.dropWhile isPyWS)

/-- Python `s.strip("\n")`. -/
def pyStripNL (s : String) : String :=
  String.mk (stripWhile (· == '\n') s.data)

/-- Python `"\n".join(lines)`. -/
def joinNL (lines : List String) : String :=
  String.intercalate "\n" lines

/-- ASCII lowercasing, as applied by `re.IGNORECASE` / `str.lower()`. -/
def lcase (c : Char) : Char :=
  if 'A' ≤ c ∧ c ≤ 'Z' then Char.ofNat (c.toNat + 32) else c

/-!  ### `parse_week_filename`

Source (`add_week.py`, lines 45-49):
```
m = re.match(r"^Week(\d{2})丨(.+)\.md$", path.name)
if not m:
    die(f"Unexpected source filename: ...")
return int(m.group(1)), m.group(2)
```
`re`'s `$` also matches just before a single trailing newline, and `.`
does not match a newline, which the embedding reproduces. -/

/-- Decide whether `rest` has the shape `title ++ ".md"` with `title`
nonempty and newline-free, returning the title. -/
def titleOfRest (rest : List Char) : Option String :=
  if rest.length ≥ 4 ∧ rest.drop (rest.length - 3) = ['.', 'm', 'd'] then
    if (rest.take (rest.length - 3)).all (· ≠ '\n') then
      some (String.mk (rest.take (rest.length - 3)))
    else none
  else none

/-- `$` in Python's `re` matches at the end of the string or just before a
single trailing newline; strip that newline before the anchored match. -/
def stripDollarNL (l : List Char) : List Char :=
  if l.getLast? = some '\n' then l.dropLast else l

def parse_week_filename (name : String) : Except String (Int × String) :=
  match stripDollarNL name.data with
  | 'W' :: 'e' :: 'e' :: 'k' :: d₁ :: d₂ :: sep :: rest =>
    if d₁.isDigit ∧ d₂.isDigit ∧ sep = '丨' then
      match titleOfRest rest with
      | some t => .ok ((10 * (d₁.toNat - 48) + (d₂.toNat - 48) : Nat), t)
      | none => .error ("Unexpected source filename: " ++ name ++ " (expected WeekXX丨标题.md)")
    else .error ("Unexpected source filename: " ++ name ++ " (expected WeekXX丨标题.md)")
  | _ => .error ("Unexpected source filename: " ++ name ++ " (expected WeekXX丨标题.md)")

/-!  ### `first_cover_src` (lines 52-62) -/

/-- Split a character list at the first character satisfying `p`:
returns `(before, after-with-hit-first)`. -/
def splitAtFirst (p : Char → Bool) (l : List Char) : List Char × List Char :=
  (l.takeWhile (fun c => ¬ p c), l.dropWhile (fun c => ¬ p c))

/-- `re.match(r"^!\[[^\]]*\]\(([^)]+)\)$", s)`: group 1, stripped. -/
def matchImageLink (s : List Char) : Option String :=
  match s with
  | '!' :: '[' :: r₁ =>
    match splitAtFirst (· == ']') r₁ with
    | (_, ']' :: '(' :: r₂) =>
      match splitAtFirst (· == ')') r₂ with
      | (path, [')']) => if path ≠ [] then some (pyStrip (String.mk path)) else none
      | _ => none
    | _ => none
  | _ => none

/-- `re.match(r"^!\[\[(.+?)\]\]$", s)`: group 1 (the characters between
`![[` and the final `]]`), stripped, prefixed with `./assets/`. -/
def matchEmbed (s : List Char) : Option String :=
  match s with
  | '!' :: '[' :: '[' :: r =>
    if r.length ≥ 3 ∧ r.drop (r.length - 2) = [']', ']'] then
      let t := r.take (r.length - 2)
      if t.all (· ≠ '\n') then
        some ("./assets/" ++ pyStrip (String.mk t))
      else none
    else none
  | _ => none

def coverOfLine (line : String) : Option String :=
  let s := (pyStrip line).data
  match matchImageLink s with
  | some p => some p
  | none => matchEmbed s

def first_cover_src (lines : List String) : Option String :=
  match lines with
  | [] => none
  | l :: t =>
    match coverOfLine l with
    | some p => some p
    | none => first_cover_src t

/-!  ### `parse_question` (lines 65-77)

```
q = []; in_q = False
for line in lines:
    if line.lstrip().startswith(">"):
        in_q = True
        q.append(line.lstrip()[1:].lstrip())
    elif in_q:
        break
question = "\n".join([x for x in q if x]).strip()
if not question: die(...)
```
-/

def isQuoteLine (line : String) : Bool :=
  match (pyLstrip line).data with
  | '>' :: _ => true
  | _ => false

/-- `line.lstrip()[1:].lstrip()`. -/
def quoteContent (line : String) : String :=
  pyLstrip (String.mk ((pyLstrip line).data.drop 1))

/-- Collect quote-line contents of the leading run of quote lines. -/
def takeQuote (lines : List String) : List String :=
  match lines with
  | [] => []
  | l :: t => if isQuoteLine l then quoteContent l :: takeQuote t else []

/-- Skip to the first quote line, then collect the contiguous quote block. -/
def collectQuote (lines : List String) : List String :=
  match lines with
  | [] => []
  | l :: t => if isQuoteLine l then quoteContent l :: takeQuote t else collectQuote t

def questionOf (block : List String) : String :=
  pyStrip (joinNL (block.filter (fun x => x ≠ "")))

def parse_question (lines : List String) : Except String String :=
  let question := questionOf (collectQuote lines)
  if question = "" then
    .error "Cannot find question blockquote (expected lines starting with '>')"
  else .ok question

/-!  ### `parse_content` (lines 80-91)

```
divider_idx = first i with lines[i].strip() == "---"
if divider_idx is None: die(...)
content = "\n".join(lines[divider_idx + 1:]).strip("\n")
if not content.strip(): die("Content is empty after divider '---'")
return content
```
-/

/-- Index of the first element satisfying `p` (the `for`/`break` scan). -/
def firstIdx? (p : String → Bool) : List String → Option Nat
  | [] => none
  | l :: t => if p l then some 0 else (firstIdx? p t).map (· + 1)

def parse_content (lines : List String) : Except String String :=
  match firstIdx? (fun l => pyStrip l == "---") lines with
  | none => .error "Cannot find content divider '---' in source markdown"
  | some i =>
    let content := pyStripNL (joinNL (lines.drop (i + 1)))
    if pyStrip content = "" then .error "Content is empty after divider '---'"
    else .ok content

/-!  ### Data model

The script manipulates article records and the JSON document as Python
dicts.  The article dicts the script builds always carry the five keys
`week, title, question, content, image`; the document carries `articles`,
`completed`, `total` and possibly further keys, which the embedding keeps
in an association list `extra` of (key, serialized value) pairs. -/

structure Article where
  week : Int
  title : String
  question : String
  content : String
  image : String
deriving Repr, DecidableEq

structure Doc where
  articles : List Article
  completed : Int
  total : Int
  extra : List (String × String)
deriving Repr, DecidableEq

/-!  ### `upsert_article` (lines 151-164)

```
articles = list(data.get("articles", []))
week = article.get("week")
replaced = False
for i, a in enumerate(articles):
    if a.get("week") == week:
        articles[i] = article; replaced = True; break
if not replaced:
    articles.append(article)
articles.sort(key=lambda a: a.get("week", 0))
data["articles"] = articles
data["completed"] = len(articles)
```
Python's `list.sort` is stable; the embedding uses a stable insertion
sort on the `week` key. -/

/-- Replace the first record whose week equals `a.week`; append `a` at the
end when none matches. -/
def replaceOrAppend (a : Article) : List Article → List Article
  | [] => [a]
  | b :: t => if b.week = a.week then a :: t else b :: replaceOrAppend a t

/-- The comparison `list.sort(key=lambda a: a.get("week", 0))` sorts by. -/
def weekLE (x y : Article) : Prop := x.week ≤ y.week

instance : DecidableRel weekLE := fun x y => Int.decLe x.week y.week

instance : IsTotal Article weekLE := ⟨fun x y => Int.le_total x.week y.week⟩

instance : IsTrans Article weekLE := ⟨fun _ _ _ h₁ h₂ => Int.le_trans h₁ h₂⟩

/-- Stable sort ascending by `week`: Python's `list.sort` is stable, and a
stable sort on this key is extensionally the stable insertion sort. -/
def sortByWeek (l : List Article) : List Article :=
  List.insertionSort weekLE l

def upsert_article (data : Doc) (article : Article) : Doc :=
  let articles := sortByWeek (replaceOrAppend article data.articles)
  { data with articles := articles, completed := (articles.length : Int) }

/-!  ### `convert_and_rewrite_assets_in_content` (lines 133-148)

```
pattern = re.compile(r"(\./assets/[^\s\)\"']+)\.(png|jpe?g)", re.IGNORECASE)
def repl(match):
    base, ext = match.group(1), match.group(2)
    src_path = resolve_local_path(f"{base}.{ext}")
    if not src_path or not src_path.exists(): return match.group(0)
    webp_path = ensure_webp(src_path, quality=quality)
    rel = webp_path.relative_to(ROOT).as_posix()
    return f"./{rel}"
return pattern.sub(repl, content)
```

The regex engine's behaviour on this pattern: a match starts at a
case-insensitive occurrence of `./assets/`, lets group 1 extend greedily
over characters outside `[\s)"']`, and backtracks to the largest prefix
that is followed by `.` and one of the (case-insensitive) extensions
`png`, `jpeg`, `jpg` — the alternation `png|jpe?g` with a greedy `e?`
tries the extensions in exactly that order.  `re.sub` scans left to
right, replacing non-overlapping leftmost matches.

The filesystem is abstracted to an existence predicate on `./`-relative
path strings; the external `cwebp` invocation inside `ensure_webp` is
modelled as succeeding (its failure aborts the whole run and never yields
a rewritten string).  `pathlib` path arithmetic (`/`, `with_suffix`,
`relative_to(...).as_posix()`) is modelled by POSIX component
normalization below. -/

/-- Character admissible inside the regex class `[^\s\)\"']`. -/
def assetAllowed (c : Char) : Bool :=
  ¬ isPyWS c && c ≠ ')' && c ≠ '"' && c ≠ Char.ofNat 39

/-- The extension accepted at this point, longest-preferred as the regex
alternation `png|jpe?g` (with greedy `e?`) would: `png`, then `jpeg`,
then `jpg`, case-insensitively.  Returns the matched source characters. -/
def extAt (u : List Char) : Option (List Char) :=
  if (u.take 3).map lcase = ['p', 'n', 'g'] then some (u.take 3)
  else if (u.take 4).map lcase = ['j', 'p', 'e', 'g'] then some (u.take 4)
  else if (u.take 3).map lcase = ['j', 'p', 'g'] then some (u.take 3)
  else none

/-- Length of the maximal admissible run. -/
def runLen (l : List Char) : Nat :=
  (l.takeWhile assetAllowed).length

/-- Search downward from `k` for the largest index `j ≥ 1` with
`t[j] = '.'` and an extension following; greedy-with-backtracking choice
of the regex group boundary. -/
def splitAux (t : List Char) : Nat → Option (Nat × List Char)
  | 0 => none
  | j + 1 =>
    match (if t[j + 1]? = some '.' then extAt (t.drop (j + 2)) else none) with
    | some e => some (j + 1, e)
    | none => splitAux t j

def findSplit (t : List Char) : Option (Nat × List Char) :=
  splitAux t (runLen t)

/-- Try to match the asset regex at the head of `s`.  On success returns
`(group 1 characters, extension characters, total match length)`. -/
def tryAssetMatch (s : List Char) : Option (List Char × List Char × Nat) :=
  if (s.take 9).map lcase = ['.', '/', 'a', 's', 's', 'e', 't', 's', '/'] then
    match findSplit (s.drop 9) with
    | some (j, e) => some (s.take (9 + j), e, 9 + j + 1 + e.length)
    | none => none
  else none

/-- Split a character list on `/` (the separators themselves dropped). -/
def splitSlash : List Char → List (List Char)
  | [] => [[]]
  | c :: t =>
    if c = '/' then [] :: splitSlash t
    else
      match splitSlash t with
      | [] => [[c]]
      | x :: xs => (c :: x) :: xs

/-- POSIX path components of a ROOT-relative path, as
`pathlib.PurePosixPath` normalizes them (empty and `.` parts dropped). -/
def normComps (l : List Char) : List (List Char) :=
  (splitSlash l).filter (fun p => decide (p ≠ [] ∧ p ≠ ['.']))

def intercalateSlash : List (List Char) → List Char
  | [] => []
  | [x] => x
  | x :: xs => x ++ '/' :: intercalateSlash xs

/-- Distance from the end of `name` to its last `.` (the whole length when
there is no dot). -/
def tailLen (name : List Char) : Nat :=
  (name.reverse.takeWhile (fun c => c != '.')).length

/-- `pathlib` stem of a file name: everything before the last `.` provided
that dot is neither the first nor the last character; otherwise the whole
name (no suffix). -/
def stemOfName (name : List Char) : List Char :=
  if tailLen name = name.length ∨ tailLen name = 0 ∨ tailLen name = name.length - 1 then
    name
  else name.take (name.length - 1 - tailLen name)

/-- `"./" + (ROOT / raw[2:]).with_suffix(".webp").relative_to(ROOT).as_posix()`
for a raw `./…` path. -/
def webpPathOf (raw : List Char) : List Char :=
  match (normComps (raw.drop 2)).reverse with
  | [] => "./.webp".data
  | name :: revRest =>
    "./".data ++ intercalateSlash (revRest.reverse ++ [stemOfName name ++ ".webp".data])

/-- The normalized `./…` path whose existence `src_path.exists()` tests. -/
def normPathOf (raw : List Char) : List Char :=
  "./".data ++ intercalateSlash (normComps (raw.drop 2))

theorem tryAssetMatch_some {s : List Char} {b e : List Char} {n : Nat}
    (h : tryAssetMatch s = some (b, e, n)) : 1 ≤ n ∧ 1 ≤ s.length := by
  unfold tryAssetMatch at h
  split at h
  · rename_i h9
    have hlen : s.length ≥ 9 := by
      have : ((s.take 9).map lcase).length = 9 := by rw [h9]; rfl
      simp only [List.length_map, List.length_take] at this
      omega
    cases hsp : findSplit (s.drop 9) with
    | none => rw [hsp] at h; exact absurd h (by simp)
    | some je =>
      rw [hsp] at h
      obtain ⟨j, ex⟩ := je
      simp only [Option.some.injEq, Prod.mk.injEq] at h
      omega
  · exact absurd h (by simp)

/-- The scanner of `pattern.sub(repl, content)`: at each position try the
regex; on a match, consult the filesystem and emit either the rewritten
path or the match unchanged, then continue after the match; otherwise
emit one character and continue. -/
def rewriteGo (ex : String → Bool) : List Char → List Char
  | [] => []
  | c :: t =>
    match h : tryAssetMatch (c :: t) with
    | some (b, e, n) =>
      (if ex (String.mk (normPathOf (b ++ '.' :: e))) then webpPathOf (b ++ '.' :: e)
       else (c :: t).take n)
        ++ rewriteGo ex ((c :: t).drop n)
    | none => c :: rewriteGo ex t
termination_by s => s.length
decreasing_by
  · have := tryAssetMatch_some h
    simp only [List.length_drop, List.length_cons]
    omega
  · simp

def convert_and_rewrite_assets_in_content (ex : String → Bool) (content : String) : String :=
  String.mk (rewriteGo ex content.data)

/-!  ### `sync_inline_json` (lines 167-182)

```
html = index_html.read_text(...)
marker = '<script id="articles-data" type="application/json">'
start = html.find(marker)
if start == -1: die(...)
start += len(marker)
end = html.find("</script>", start)
if end == -1: die(...)
inline = json.dumps(data, ensure_ascii=False, separators=(",", ": "))
inline = inline.replace("</script>", "<\\/script>")
index_html.write_text(html[:start] + inline + html[end:], ...)
```
The embedding separates the pure text transformation (here) from the file
round-trip (in `mainModel` below); the serialized document is a `String`
parameter. -/

def markerL : List Char :=
  "<script id=\"articles-data\" type=\"application/json\">".data

def closeTagL : List Char :=
  "</script>".data

/-- Python `s.find(pat)` restricted to a hit: index of the leftmost
occurrence of `pat`, or `none` (Python's `-1`). -/
def pyFind (pat : List Char) : List Char → Option Nat
  | [] => if pat = [] then some 0 else none
  | c :: t =>
    if pat.isPrefixOf (c :: t) then some 0
    else (pyFind pat t).map (· + 1)

/-- `inline.replace("</script>", "<\\/script>")`: left-to-right
non-overlapping replacement. -/
def escapeCloseTag : List Char → List Char
  | [] => []
  | c :: t =>
    if closeTagL.isPrefixOf (c :: t) then
      "<\\/script>".data ++ escapeCloseTag (t.drop 8)
    else c :: escapeCloseTag t
termination_by l => l.length
decreasing_by
  · simp only [List.length_drop, List.length_cons]; omega
  · simp

def sync_inline_json (html : String) (inline : String) : Except String String :=
  match pyFind markerL html.data with
  | none => .error "Cannot find <script id=\"articles-data\" ...> in index.html"
  | some i₀ =>
    let start := i₀ + markerL.length
    match pyFind closeTagL (html.data.drop start) with
    | none => .error "Cannot find closing </script> for articles-data in index.html"
    | some j =>
      .ok (String.mk (html.data.take start ++ escapeCloseTag inline.data
            ++ html.data.drop (start + j)))

/-!  ### JSON serialization used by the pipeline

`json.dumps(data, ensure_ascii=False, separators=(",", ": "))`, for the
document shape the script builds: keys in insertion order
(`articles`, `completed`, `total`, then any further keys of the loaded
document, whose values `extra` keeps already serialized). -/

def hexDigit (n : Nat) : Char :=
  if n < 10 then Char.ofNat (48 + n) else Char.ofNat (87 + n)

/-- JSON string escaping as performed by `json.dumps(..., ensure_ascii=False)`. -/
def jsonEscapeChar (c : Char) : List Char :=
  if c = '"' then ['\\', '"']
  else if c = '\\' then ['\\', '\\']
  else if c = '\n' then ['\\', 'n']
  else if c = '\t' then ['\\', 't']
  else if c = '\x0d' then ['\\', 'r']
  else if c = Char.ofNat 8 then ['\\', 'b']
  else if c = Char.ofNat 12 then ['\\', 'f']
  else if c.toNat < 32 then
    ['\\', 'u', '0', '0', hexDigit (c.toNat / 16), hexDigit (c.toNat % 16)]
  else [c]

def jsonStr (s : String) : String :=
  "\"" ++ String.mk (s.data.flatMap jsonEscapeChar) ++ "\""

def dumpsArticle (a : Article) : String :=
  "\x7b\"week\": " ++ toString a.week
    ++ ",\"title\": " ++ jsonStr a.title
    ++ ",\"question\": " ++ jsonStr a.question
    ++ ",\"content\": " ++ jsonStr a.content
    ++ ",\"image\": " ++ jsonStr a.image ++ "\x7d"

def dumpsDoc (d : Doc) : String :=
  "\x7b\"articles\": [" ++ String.intercalate "," (d.articles.map dumpsArticle) ++ "]"
    ++ ",\"completed\": " ++ toString d.completed
    ++ ",\"total\": " ++ toString d.total
    ++ String.join (d.extra.map (fun kv => "," ++ jsonStr kv.1 ++ ": " ++ kv.2))
    ++ "\x7d"

/-!  ### Filesystem model and `main` (lines 185-237)

The two output files the claims speak about are tracked explicitly:
`articles.json` as its parsed document (the script reads it with
`json.loads` and writes it back whole) and `index.html` as text.
`assets` is the set of existing `./…`-relative files, used by the
existence checks; `cwebp` conversions (which only create new `.webp`
files under `assets/`, never touching the two tracked outputs) are
modelled as succeeding, the created file being added to `assets`. -/

structure FS where
  articlesDoc : Doc
  indexHtml : String
  assets : List String
deriving Repr, DecidableEq

/-- `resolve_local_path` (lines 94-97). -/
def resolve_local_path (p : String) : Option String :=
  match p.data with
  | '.' :: '/' :: _ => some p
  | _ => none

/-- `pathlib.Path.suffix.lower()` of a `./…` path string. -/
def lowerSuffixOf (p : String) : String :=
  match (normComps (p.data.drop 2)).reverse with
  | [] => ""
  | name :: _ =>
    String.mk ((name.drop (stemOfName name).length).map lcase)

/-- `ensure_webp` (lines 100-120): returns the `.webp` path and the
filesystem after conversion (a no-op when the output already exists). -/
def ensure_webp (src : String) (fs : FS) : String × FS :=
  let out := String.mk (webpPathOf src.data)
  if out ∈ fs.assets then (out, fs)
  else (out, { fs with assets := out :: fs.assets })

/-- `f"{week:02d}"` for the values reachable here (0 ≤ week ≤ 99). -/
def fmt02 (w : Int) : String :=
  if 0 ≤ w ∧ w < 10 then "0" ++ toString w else toString w

/-- `pick_cover_asset` (lines 123-130). -/
def pick_cover_asset (week : Int) (title : String) (fs : FS) : Except String String :=
  let stem := "Week" ++ fmt02 week ++ "丨" ++ title
  let candidates := [".webp", ".png", ".jpg", ".jpeg"].map
    (fun ext => "./assets/" ++ stem ++ ext)
  match candidates.find? (fun p => p ∈ fs.assets) with
  | some p => .ok p
  | none => .error ("Cannot find cover image in assets/ for " ++ stem
      ++ " (tried webp/png/jpg/jpeg)")

/-- The body of `main` after the source file has been read and split into
lines.  `.error (msg, fs)` is `die`: a nonzero exit with the filesystem
as it stood at that point. -/
def mainModel (srcName : String) (lines : List String) (fs : FS) :
    Except (String × FS) FS :=
  match parse_week_filename srcName with
  | .error e => .error (e, fs)
  | .ok (week, title) =>
    let coverSrc := first_cover_src lines
    match parse_question lines with
    | .error e => .error (e, fs)
    | .ok question =>
      match parse_content lines with
      | .error e => .error (e, fs)
      | .ok content =>
        -- Resolve cover image path
        let coverPath : Option String :=
          match coverSrc with
          | some s =>
            match resolve_local_path s with
            | some p => if String.mk (normPathOf p.data) ∈ fs.assets then some p else none
            | none => none
          | none => none
        match
          (match coverPath with
           | some p => .ok p
           | none => pick_cover_asset week title fs : Except String String)
        with
        | .error e => .error (e, fs)
        | .ok coverPath =>
          -- Ensure cover is webp
          let (coverRef, fs₁) :=
            if lowerSuffixOf coverPath = ".webp" then (String.mk (normPathOf coverPath.data), fs)
            else ensure_webp coverPath fs
          -- Convert in-content asset links and rewrite paths
          let content :=
            convert_and_rewrite_assets_in_content (fun p => p ∈ fs₁.assets) content
          -- Load + update articles.json
          let article : Article :=
            { week := week, title := title, question := question,
              content := content, image := coverRef }
          let data := upsert_article fs₁.articlesDoc article
          let fs₂ := { fs₁ with articlesDoc := data }
          match sync_inline_json fs₂.indexHtml (dumpsDoc data) with
          | .error e => .error (e, fs₂)
          | .ok html => .ok { fs₂ with indexHtml := html }

/-- Process-level semantics: the final filesystem and the exit code
(`die` raises `SystemExit(1)`; success returns 0). -/
def runProcess (srcName : String) (lines : List String) (fs : FS) : FS × Nat :=
  match mainModel srcName lines fs with
  | .ok fs' => (fs', 0)
  | .error (_, fs') => (fs', 1)

/-!  ## Lemmas about `upsert_article` -/

theorem replaceOrAppend_of_no_match (a : Article) (l : List Article)
    (h : ∀ b ∈ l, b.week ≠ a.week) : replaceOrAppend a l = l ++ [a] := by
  induction l with
  | nil => rfl
  | cons b t ih =>
    have hb := h b (List.mem_cons_self b t)
    simp only [replaceOrAppend, if_neg hb, List.cons_append, List.cons.injEq, true_and]
    exact ih (fun x hx => h x (List.mem_cons_of_mem b hx))

theorem replaceOrAppend_decomp (a b : Article) (l₁ l₂ : List Article)
    (hb : b.week = a.week) (h₁ : ∀ x ∈ l₁, x.week ≠ a.week) :
    replaceOrAppend a (l₁ ++ b :: l₂) = l₁ ++ a :: l₂ := by
  induction l₁ with
  | nil => simp [replaceOrAppend, hb]
  | cons x t ih =>
    have hx := h₁ x (List.mem_cons_self x t)
    simp only [List.cons_append, replaceOrAppend, if_neg hx, List.cons.injEq, true_and]
    exact ih (fun y hy => h₁ y (List.mem_cons_of_mem x hy))

theorem sortByWeek_perm (l : List Article) : (sortByWeek l).Perm l :=
  List.perm_insertionSort weekLE l

theorem sortByWeek_sorted (l : List Article) : List.Sorted weekLE (sortByWeek l) :=
  List.sorted_insertionSort weekLE l

theorem upsert_articles_eq (d : Doc) (a : Article) :
    (upsert_article d a).articles = sortByWeek (replaceOrAppend a d.articles) := rfl

theorem upsert_articles_perm (d : Doc) (a : Article) :
    (upsert_article d a).articles.Perm (replaceOrAppend a d.articles) :=
  sortByWeek_perm _

theorem replaceOrAppend_mem (a : Article) (l : List Article) :
    ∀ x ∈ replaceOrAppend a l, x = a ∨ x ∈ l := by
  induction l with
  | nil => intro x hx; simp only [replaceOrAppend, List.mem_singleton] at hx; exact Or.inl hx
  | cons b t ih =>
    intro x hx
    by_cases hb : b.week = a.week
    · simp only [replaceOrAppend, if_pos hb, List.mem_cons] at hx
      rcases hx with h | h
      · exact Or.inl h
      · exact Or.inr (List.mem_cons_of_mem b h)
    · simp only [replaceOrAppend, if_neg hb, List.mem_cons] at hx
      rcases hx with h | h
      · exact Or.inr (h ▸ List.mem_cons_self b t)
      · rcases ih x h with h' | h'
        · exact Or.inl h'
        · exact Or.inr (List.mem_cons_of_mem b h')

theorem replaceOrAppend_weeks_nodup (a : Article) (l : List Article)
    (h : (l.map Article.week).Nodup) :
    ((replaceOrAppend a l).map Article.week).Nodup := by
  induction l with
  | nil => simp [replaceOrAppend]
  | cons b t ih =>
    simp only [List.map_cons, List.nodup_cons] at h
    obtain ⟨hb, ht⟩ := h
    by_cases hw : b.week = a.week
    · simp only [replaceOrAppend, if_pos hw, List.map_cons, List.nodup_cons]
      exact ⟨fun hc => hb (by simpa [← hw] using hc), ht⟩
    · simp only [replaceOrAppend, if_neg hw, List.map_cons, List.nodup_cons]
      refine ⟨fun hc => ?_, ih ht⟩
      rcases List.mem_map.mp hc with ⟨x, hx, hxw⟩
      rcases replaceOrAppend_mem a t x hx with rfl | hxt
      · exact hw (hxw ▸ rfl)
      · exact hb (List.mem_map.mpr ⟨x, hxt, hxw⟩)

/-- Week-keyed first lookup is unchanged by the stable insertion: positive
case (the inserted record has the looked-up week). -/
theorem find?_week_orderedInsert_pos (w : Int) (a : Article) (m : List Article)
    (h : a.week = w) :
    (List.orderedInsert weekLE a m).find? (fun x => x.week == w) = some a := by
  induction m with
  | nil => exact List.find?_cons_of_pos _ (by simp [h])
  | cons b t ih =>
    by_cases hle : weekLE a b
    · simp only [List.orderedInsert, if_pos hle]
      exact List.find?_cons_of_pos _ (by simp [h])
    · have hbw : b.week ≠ w := by
        intro hb
        exact hle (by simp only [weekLE, h, hb]; omega)
      simp only [List.orderedInsert, if_neg hle]
      rw [List.find?_cons_of_neg _ (by simp [hbw])]
      exact ih

/-- Week-keyed first lookup is unchanged by the stable insertion: negative
case (the inserted record has a different week). -/
theorem find?_week_orderedInsert_neg (w : Int) (a : Article) (m : List Article)
    (h : ¬ a.week = w) :
    (List.orderedInsert weekLE a m).find? (fun x => x.week == w) =
      m.find? (fun x => x.week == w) := by
  induction m with
  | nil => exact List.find?_cons_of_neg _ (by simp [h])
  | cons b t ih =>
    by_cases hle : weekLE a b
    · simp only [List.orderedInsert, if_pos hle]
      exact List.find?_cons_of_neg _ (by simp [h])
    · by_cases hbw : b.week = w
      · simp only [List.orderedInsert, if_neg hle]
        rw [List.find?_cons_of_pos _ (by simp [hbw]), List.find?_cons_of_pos _ (by simp [hbw])]
      · simp only [List.orderedInsert, if_neg hle]
        rw [List.find?_cons_of_neg _ (by simp [hbw]), List.find?_cons_of_neg _ (by simp [hbw])]
        exact ih

/-- The stable sort does not change which record a week-keyed first lookup
finds. -/
theorem find?_week_sortByWeek (w : Int) (l : List Article) :
    (sortByWeek l).find? (fun x => x.week == w) = l.find? (fun x => x.week == w) := by
  induction l with
  | nil => rfl
  | cons a t ih =>
    show (List.orderedInsert weekLE a (sortByWeek t)).find? _ = _
    by_cases ha : a.week = w
    · rw [find?_week_orderedInsert_pos w a _ ha,
        List.find?_cons_of_pos _ (by simp [ha])]
    · rw [find?_week_orderedInsert_neg w a _ ha, ih,
        List.find?_cons_of_neg _ (by simp [ha])]

theorem find?_week_replaceOrAppend (a : Article) (l : List Article) :
    (replaceOrAppend a l).find? (fun x => x.week == a.week) = some a := by
  induction l with
  | nil => exact List.find?_cons_of_pos _ (by simp)
  | cons b t ih =>
    by_cases hb : b.week = a.week
    · simp only [replaceOrAppend, if_pos hb]
      exact List.find?_cons_of_pos _ (by simp)
    · simp only [replaceOrAppend, if_neg hb]
      rw [List.find?_cons_of_neg _ (by simp [hb])]
      exact ih

theorem replaceOrAppend_eq_self (a : Article) (m : List Article)
    (h : m.find? (fun x => x.week == a.week) = some a) :
    replaceOrAppend a m = m := by
  induction m with
  | nil => exact absurd h (by simp)
  | cons b t ih =>
    by_cases hb : b.week = a.week
    · rw [List.find?_cons_of_pos _ (by simp [hb])] at h
      have hba : b = a := by injection h
      simp [replaceOrAppend, if_pos hb, hba]
    · rw [List.find?_cons_of_neg _ (by simp [hb])] at h
      simp [replaceOrAppend, if_neg hb, ih h]

/-!  ## Claims about `upsert_article` -/

/-- **C1.** For every document and article record, `upsert_article` replaces
the existing record whose week matches (entirely, no field merge) or appends
the record when no week matches; afterwards the collection is sorted
ascending by week and `completed` equals the number of articles; the size is
unchanged when a matching week existed and grows by exactly one otherwise. -/
theorem upsert_article_spec (d : Doc) (a : Article) :
    List.Sorted weekLE (upsert_article d a).articles ∧
    (upsert_article d a).completed = ((upsert_article d a).articles.length : Int) ∧
    ((∀ b ∈ d.articles, b.week ≠ a.week) →
      (upsert_article d a).articles.Perm (d.articles ++ [a]) ∧
      (upsert_article d a).articles.length = d.articles.length + 1) ∧
    (∀ l₁ b l₂, d.articles = l₁ ++ b :: l₂ → b.week = a.week →
      (∀ x ∈ l₁, x.week ≠ a.week) →
      (upsert_article d a).articles.Perm (l₁ ++ a :: l₂) ∧
      (upsert_article d a).articles.length = d.articles.length) := by
  refine ⟨sortByWeek_sorted _, rfl, fun h => ?_, fun l₁ b l₂ hd hb h₁ => ?_⟩
  · have hra := replaceOrAppend_of_no_match a d.articles h
    have hperm : (upsert_article d a).articles.Perm (d.articles ++ [a]) := by
      rw [upsert_articles_eq, hra]; exact sortByWeek_perm _
    exact ⟨hperm, by simpa using hperm.length_eq⟩
  · have hra := replaceOrAppend_decomp a b l₁ l₂ hb h₁
    have hperm : (upsert_article d a).articles.Perm (l₁ ++ a :: l₂) := by
      rw [upsert_articles_eq, hd, hra]; exact sortByWeek_perm _
    refine ⟨hperm, ?_⟩
    rw [hperm.length_eq, hd]; simp

/-- Witness for C1: concretely, upserting week 2 into a week-1 document
appends (size 1 → 2), and upserting week 2 into a week-1/week-2 document
replaces the week-2 record wholesale (size stays 2). -/
theorem upsert_article_spec_witness :
    ((upsert_article
        { articles := [{ week := 1, title := "a", question := "qa", content := "ca", image := "ia" }],
          completed := 1, total := 52, extra := [] }
        { week := 2, title := "b", question := "qb", content := "cb", image := "ib" }).articles.Perm
      ([{ week := 1, title := "a", question := "qa", content := "ca", image := "ia" }] ++
        [{ week := 2, title := "b", question := "qb", content := "cb", image := "ib" }]) ∧
      (upsert_article
        { articles := [{ week := 1, title := "a", question := "qa", content := "ca", image := "ia" }],
          completed := 1, total := 52, extra := [] }
        { week := 2, title := "b", question := "qb", content := "cb", image := "ib" }).articles.length = 2) ∧
    ((upsert_article
        { articles := [{ week := 1, title := "a", question := "qa", content := "ca", image := "ia" },
                       { week := 2, title := "old", question := "qo", content := "co", image := "io" }],
          completed := 2, total := 52, extra := [] }
        { week := 2, title := "b", question := "qb", content := "cb", image := "ib" }).articles.Perm
      ([{ week := 1, title := "a", question := "qa", content := "ca", image := "ia" }] ++
        { week := 2, title := "b", question := "qb", content := "cb", image := "ib" } :: []) ∧
      (upsert_article
        { articles := [{ week := 1, title := "a", question := "qa", content := "ca", image := "ia" },
                       { week := 2, title := "old", question := "qo", content := "co", image := "io" }],
          completed := 2, total := 52, extra := [] }
        { week := 2, title := "b", question := "qb", content := "cb", image := "ib" }).articles.length = 2) := by
  constructor
  · exact (upsert_article_spec _ _).2.2.1 (by decide)
  · exact (upsert_article_spec _ _).2.2.2
      [{ week := 1, title := "a", question := "qa", content := "ca", image := "ia" }]
      { week := 2, title := "old", question := "qo", content := "co", image := "io" } []
      rfl rfl (by decide)

/-- **C2.** Week uniqueness is an invariant: if the articles contain exactly
one record per week value, they still do after any `upsert_article`. -/
theorem upsert_article_weeks_nodup (d : Doc) (a : Article)
    (h : (d.articles.map Article.week).Nodup) :
    ((upsert_article d a).articles.map Article.week).Nodup := by
  have hperm := (upsert_articles_perm d a).map Article.week
  exact hperm.nodup_iff.mpr (replaceOrAppend_weeks_nodup a d.articles h)

/-- Witness for C2 at a concrete document with distinct weeks. -/
theorem upsert_article_weeks_nodup_witness :
    (((upsert_article
        { articles := [{ week := 1, title := "a", question := "", content := "", image := "" },
                       { week := 3, title := "c", question := "", content := "", image := "" }],
          completed := 2, total := 52, extra := [] }
        { week := 3, title := "c2", question := "", content := "", image := "" }).articles).map
      Article.week).Nodup :=
  upsert_article_weeks_nodup _ _ (by decide)

/-- **C9.** `upsert_article` only rewrites `articles` and `completed`: the
`total` field and every other top-level field of the document are
untouched. -/
theorem upsert_article_frame (d : Doc) (a : Article) :
    (upsert_article d a).total = d.total ∧ (upsert_article d a).extra = d.extra :=
  ⟨rfl, rfl⟩

/-- **C10.** `upsert_article` is idempotent: upserting the same record twice
yields exactly the document obtained by upserting it once. -/
theorem upsert_article_idem (d : Doc) (a : Article) :
    upsert_article (upsert_article d a) a = upsert_article d a := by
  have h1 : ((upsert_article d a).articles).find? (fun x => x.week == a.week) = some a := by
    rw [upsert_articles_eq, find?_week_sortByWeek]
    exact find?_week_replaceOrAppend a d.articles
  have h2 : replaceOrAppend a (upsert_article d a).articles = (upsert_article d a).articles :=
    replaceOrAppend_eq_self a _ h1
  have h3 : sortByWeek (upsert_article d a).articles = (upsert_article d a).articles :=
    List.Sorted.insertionSort_eq (by rw [upsert_articles_eq]; exact sortByWeek_sorted _)
  cases d with
  | mk arts comp tot extra =>
    simp only [upsert_article] at h2 h3 ⊢
    rw [h2, h3]

/-!  ## Lemmas about the markdown parsers -/

theorem firstIdx?_eq_none (p : String → Bool) (lines : List String)
    (h : ∀ l ∈ lines, p l = false) : firstIdx? p lines = none := by
  induction lines with
  | nil => rfl
  | cons l t ih =>
    simp only [firstIdx?, h l (List.mem_cons_self l t), Bool.false_eq_true, if_false]
    rw [ih (fun x hx => h x (List.mem_cons_of_mem l hx))]
    rfl

theorem firstIdx?_append_hit (p : String → Bool) (pre : List String) (d : String)
    (rest : List String) (hpre : ∀ l ∈ pre, p l = false) (hd : p d = true) :
    firstIdx? p (pre ++ d :: rest) = some pre.length := by
  induction pre with
  | nil => simp [firstIdx?, hd]
  | cons x t ih =>
    simp only [List.cons_append, firstIdx?, hpre x (List.mem_cons_self x t),
      Bool.false_eq_true, if_false, List.append_eq]
    rw [ih (fun y hy => hpre y (List.mem_cons_of_mem x hy))]
    rfl

/-- **C6.** `parse_content` locates the first line whose strip equals `---`
and returns everything after it, joined and trimmed of surrounding blank
lines; it fails (nonzero exit) exactly when no such line exists or the
trimmed remainder is whitespace-free empty. -/
theorem parse_content_spec :
    (∀ lines : List String, (∀ l ∈ lines, pyStrip l ≠ "---") →
      ∃ e, parse_content lines = .error e) ∧
    (∀ (pre : List String) (d : String) (rest : List String),
      pyStrip d = "---" → (∀ l ∈ pre, pyStrip l ≠ "---") →
      (pyStrip (pyStripNL (joinNL rest)) = "" →
        ∃ e, parse_content (pre ++ d :: rest) = .error e) ∧
      (pyStrip (pyStripNL (joinNL rest)) ≠ "" →
        parse_content (pre ++ d :: rest) = .ok (pyStripNL (joinNL rest)))) := by
  constructor
  · intro lines h
    refine ⟨"Cannot find content divider '---' in source markdown", ?_⟩
    unfold parse_content
    rw [firstIdx?_eq_none _ _ (fun l hl => by simpa using h l hl)]
  · intro pre d rest hd hpre
    have hidx : firstIdx? (fun l => pyStrip l == "---") (pre ++ d :: rest)
        = some pre.length :=
      firstIdx?_append_hit _ pre d rest (fun l hl => by simpa using hpre l hl)
        (by simpa using hd)
    have hdrop : (pre ++ d :: rest).drop (pre.length + 1) = rest := by
      have : (pre ++ d :: rest).drop (pre.length + 1) = (d :: rest).drop 1 := by
        rw [List.drop_append]
      simpa using this
    constructor
    · intro hempty
      refine ⟨"Content is empty after divider '---'", ?_⟩
      unfold parse_content
      rw [hidx]
      simp only [hdrop, if_pos hempty]
    · intro hne
      unfold parse_content
      rw [hidx]
      simp only [hdrop, if_neg hne]

/-- **C7 counterexample.** The single line `">"` is a contiguous quote
block (a line starting with the quote marker), yet `parse_question` dies
instead of returning it: its stripped content is empty. -/
theorem parse_question_claim_false :
    isQuoteLine ">" = true ∧
    parse_question [">"]
      = .error "Cannot find question blockquote (expected lines starting with '>')" := by
  constructor
  · decide
  · rfl

theorem takeQuote_all (qs rest : List String)
    (hqs : ∀ l ∈ qs, isQuoteLine l = true)
    (hrest : rest = [] ∨ ∃ r rs, rest = r :: rs ∧ isQuoteLine r = false) :
    takeQuote (qs ++ rest) = qs.map quoteContent := by
  induction qs with
  | nil =>
    rcases hrest with rfl | ⟨r, rs, rfl, hr⟩
    · rfl
    · simp [takeQuote, hr]
  | cons q t ih =>
    simp only [List.cons_append, takeQuote, hqs q (List.mem_cons_self q t), if_true,
      List.map_cons, List.cons.injEq, true_and]
    exact ih (fun l hl => hqs l (List.mem_cons_of_mem q hl))

theorem collectQuote_skip (pre rest : List String)
    (hpre : ∀ l ∈ pre, isQuoteLine l = false) :
    collectQuote (pre ++ rest) = collectQuote rest := by
  induction pre with
  | nil => rfl
  | cons x t ih =>
    simp only [List.cons_append, collectQuote, hpre x (List.mem_cons_self x t),
      Bool.false_eq_true, if_false]
    exact ih (fun l hl => hpre l (List.mem_cons_of_mem x hl))

/-- **C7 amended.** `parse_question` returns the first contiguous block of
quote lines — skipping any non-quote prefix, stopping at the first
non-quote line after quoting begins — as the stripped newline-join of the
blocks' nonempty stripped contents; it fails fatally when no quote block
exists, or when the block's content is empty after stripping. -/
theorem parse_question_spec :
    (∀ lines : List String, (∀ l ∈ lines, isQuoteLine l = false) →
      parse_question lines
        = .error "Cannot find question blockquote (expected lines starting with '>')") ∧
    (∀ (pre : List String) (q : String) (qs rest : List String),
      (∀ l ∈ pre, isQuoteLine l = false) → isQuoteLine q = true →
      (∀ l ∈ qs, isQuoteLine l = true) →
      (rest = [] ∨ ∃ r rs, rest = r :: rs ∧ isQuoteLine r = false) →
      parse_question (pre ++ q :: qs ++ rest)
        = (if questionOf (quoteContent q :: qs.map quoteContent) = "" then
            .error "Cannot find question blockquote (expected lines starting with '>')"
          else .ok (questionOf (quoteContent q :: qs.map quoteContent)))) := by
  constructor
  · intro lines h
    have hc : collectQuote lines = [] := by
      rw [← List.append_nil lines, collectQuote_skip lines [] h]
      rfl
    unfold parse_question
    rw [hc]
    rfl
  · intro pre q qs rest hpre hq hqs hrest
    have hc : collectQuote (pre ++ q :: qs ++ rest)
        = quoteContent q :: qs.map quoteContent := by
      have h₁ : pre ++ q :: qs ++ rest = pre ++ (q :: (qs ++ rest)) := by simp
      rw [h₁, collectQuote_skip pre _ hpre]
      simp only [collectQuote, hq, if_true, List.cons.injEq, true_and]
      exact takeQuote_all qs rest hqs hrest
    unfold parse_question
    rw [hc]

/-- Witness for C6 at concrete inputs: a divider-free source errors, and
`["t", "---", "", "body"]` yields `"body"`. -/
theorem parse_content_spec_witness :
    (∃ e, parse_content ["t", "x"] = .error e) ∧
    parse_content ["t", "---", "", "body"] = .ok "body" := by
  constructor
  · exact parse_content_spec.1 ["t", "x"] (by decide)
  · have h := (parse_content_spec.2 ["t"] "---" ["", "body"] (by decide) (by decide)).2
    simpa using h (by decide)

/-- Witness for C7 (amended) at concrete inputs. -/
theorem parse_question_spec_witness :
    parse_question ["none"]
      = .error "Cannot find question blockquote (expected lines starting with '>')" ∧
    parse_question ["intro", "> q1", ">q2", "after", "> later"]
      = .ok "q1\nq2" := by
  constructor
  · exact parse_question_spec.1 ["none"] (by decide)
  · have h := parse_question_spec.2 ["intro"] "> q1" [">q2"] ["after", "> later"]
      (by decide) (by decide) (by decide)
      (Or.inr ⟨"after", ["> later"], rfl, by decide⟩)
    simpa using h

/-!  ## Lemmas about `parse_week_filename` -/

/-- A name matching `re.match(r"^Week(\d{2})丨(.+)\.md$", name)`: the regex
`$` also accepts one trailing newline, and `.` excludes newlines. -/
def weekNameMatch (name : String) : Prop :=
  ∃ (d₁ d₂ : Char) (t nl : List Char),
    (nl = [] ∨ nl = ['\n']) ∧
    name.data = 'W' :: 'e' :: 'e' :: 'k' :: d₁ :: d₂ :: '丨' :: (t ++ '.' :: 'm' :: 'd' :: nl) ∧
    d₁.isDigit ∧ d₂.isDigit ∧ t ≠ [] ∧ (∀ c ∈ t, c ≠ '\n')

theorem titleOfRest_concat (t : List Char) (ht : t ≠ []) (hnl : ∀ c ∈ t, c ≠ '\n') :
    titleOfRest (t ++ ['.', 'm', 'd']) = some (String.mk t) := by
  have hlen : (t ++ ['.', 'm', 'd']).length = t.length + 3 := by simp
  have hcond : (t ++ ['.', 'm', 'd']).length ≥ 4 ∧
      (t ++ ['.', 'm', 'd']).drop ((t ++ ['.', 'm', 'd']).length - 3) = ['.', 'm', 'd'] := by
    constructor
    · rw [hlen]
      have : t.length ≥ 1 := List.length_pos.mpr ht
      omega
    · rw [hlen]
      simpa using List.drop_left t ['.', 'm', 'd']
  unfold titleOfRest
  rw [if_pos hcond, hlen]
  have htake : (t ++ ['.', 'm', 'd']).take (t.length + 3 - 3) = t := by
    simpa using List.take_left t ['.', 'm', 'd']
  rw [htake, if_pos (by rw [List.all_eq_true]; intro c hc; simpa using hnl c hc)]

theorem titleOfRest_some {rest : List Char} {s : String}
    (h : titleOfRest rest = some s) :
    ∃ t, rest = t ++ ['.', 'm', 'd'] ∧ t ≠ [] ∧ (∀ c ∈ t, c ≠ '\n') ∧ s = String.mk t := by
  unfold titleOfRest at h
  split at h
  case isFalse => exact absurd h (by simp)
  · rename_i hcond
    obtain ⟨hlen, hdrop⟩ := hcond
    split at h
    case isFalse => exact absurd h (by simp)
    · rename_i hall
      refine ⟨rest.take (rest.length - 3), ?_, ?_, ?_, ?_⟩
      · conv_lhs => rw [← List.take_append_drop (rest.length - 3) rest]
        rw [hdrop]
      · have : (rest.take (rest.length - 3)).length = rest.length - 3 := by
          simp only [List.length_take]
          omega
        intro hnil
        rw [hnil] at this
        simp at this
        omega
      · intro c hc
        have := List.all_eq_true.mp hall c hc
        simpa using this
      · exact (Option.some.injEq _ _).mp h.symm

theorem stripDollarNL_inv (l : List Char) :
    l = stripDollarNL l ∨ l = stripDollarNL l ++ ['\n'] := by
  unfold stripDollarNL
  split
  · rename_i hlast
    right
    rcases List.eq_nil_or_concat l with hnil | ⟨l', a, hla⟩
    · rw [hnil] at hlast; simp at hlast
    · rw [List.concat_eq_append] at hla
      rw [hla, List.getLast?_concat] at hlast
      simp only [Option.some.injEq] at hlast
      rw [hla, List.dropLast_concat, hlast]
  · left; rfl

/-- Successful parses only arise from names matching the filename regex. -/
theorem parse_week_filename_ok {name : String} {w : Int} {t : String}
    (h : parse_week_filename name = .ok (w, t)) : weekNameMatch name := by
  unfold parse_week_filename at h
  split at h
  · rename_i d₁ d₂ sep rest heq
    split at h
    · rename_i hguard
      obtain ⟨h₁, h₂, rfl⟩ := hguard
      split at h
      · rename_i t' hres
        obtain ⟨tl, rfl, htl, hnl, rfl⟩ := titleOfRest_some hres
        rcases stripDollarNL_inv name.data with hd | hd
        · exact ⟨d₁, d₂, tl, [], Or.inl rfl, by rw [hd, heq], h₁, h₂, htl, hnl⟩
        · exact ⟨d₁, d₂, tl, ['\n'], Or.inr rfl, by rw [hd, heq]; simp, h₁, h₂, htl, hnl⟩
      · exact absurd h (by simp)
    · exact absurd h (by simp)
  · exact absurd h (by simp)

/-- **C8.** `parse_week_filename` extracts exactly the numeric two-digit
week and the title from names matching `Week<2-digit-number>丨<title>.md`
(the regex's own matching semantics: `$` tolerates one trailing newline),
and fails with the input-format error on every non-matching name. -/
theorem parse_week_filename_spec :
    (∀ (d₁ d₂ : Char) (t nl : List Char),
      (nl = [] ∨ nl = ['\n']) → d₁.isDigit → d₂.isDigit → t ≠ [] →
      (∀ c ∈ t, c ≠ '\n') →
      parse_week_filename
        (String.mk ('W' :: 'e' :: 'e' :: 'k' :: d₁ :: d₂ :: '丨' :: (t ++ '.' :: 'm' :: 'd' :: nl)))
        = .ok ((10 * (d₁.toNat - 48) + (d₂.toNat - 48) : Nat), String.mk t)) ∧
    (∀ name : String, ¬ weekNameMatch name → ∃ e, parse_week_filename name = .error e) := by
  have hstrip : ∀ (d₁ d₂ : Char) (t nl : List Char), (nl = [] ∨ nl = ['\n']) →
      (∀ c ∈ t, c ≠ '\n') →
      stripDollarNL ('W' :: 'e' :: 'e' :: 'k' :: d₁ :: d₂ :: '丨' :: (t ++ '.' :: 'm' :: 'd' :: nl))
        = 'W' :: 'e' :: 'e' :: 'k' :: d₁ :: d₂ :: '丨' :: (t ++ ['.', 'm', 'd']) := by
    intro d₁ d₂ t nl hnl ht
    rcases hnl with rfl | rfl
    · have hd : ('W' :: 'e' :: 'e' :: 'k' :: d₁ :: d₂ :: '丨' :: (t ++ '.' :: 'm' :: 'd' :: [])).getLast?
          = some 'd' := by
        have : 'W' :: 'e' :: 'e' :: 'k' :: d₁ :: d₂ :: '丨' :: (t ++ '.' :: 'm' :: 'd' :: ([] : List Char))
            = ('W' :: 'e' :: 'e' :: 'k' :: d₁ :: d₂ :: '丨' :: (t ++ ['.', 'm'])) ++ ['d'] := by
          simp
        rw [this, List.getLast?_concat]
      unfold stripDollarNL
      rw [hd, if_neg (by decide)]
    · have heq : 'W' :: 'e' :: 'e' :: 'k' :: d₁ :: d₂ :: '丨' :: (t ++ '.' :: 'm' :: 'd' :: ['\n'])
          = ('W' :: 'e' :: 'e' :: 'k' :: d₁ :: d₂ :: '丨' :: (t ++ ['.', 'm', 'd'])) ++ ['\n'] := by
        simp
      unfold stripDollarNL
      rw [heq, List.getLast?_concat, if_pos rfl]
      rw [List.dropLast_concat]
  constructor
  · intro d₁ d₂ t nl hnl h₁ h₂ ht hnlt
    unfold parse_week_filename
    rw [show (String.mk ('W' :: 'e' :: 'e' :: 'k' :: d₁ :: d₂ :: '丨' :: (t ++ '.' :: 'm' :: 'd' :: nl))).data
        = 'W' :: 'e' :: 'e' :: 'k' :: d₁ :: d₂ :: '丨' :: (t ++ '.' :: 'm' :: 'd' :: nl) from rfl,
      hstrip d₁ d₂ t nl hnl hnlt]
    simp only [h₁, h₂, and_self, and_true, true_and, if_true,
      titleOfRest_concat t ht hnlt]
  · intro name hmatch
    cases hp : parse_week_filename name with
    | error e => exact ⟨e, rfl⟩
    | ok p =>
      obtain ⟨w, t⟩ := p
      exact absurd (parse_week_filename_ok hp) hmatch

/-- Witness for C8: the in-repo example name parses to `(39, "暂停")`, and a
non-matching name fails. -/
theorem parse_week_filename_spec_witness :
    parse_week_filename "Week39丨暂停.md" = .ok (39, "暂停") ∧
    (∃ e, parse_week_filename "notes.md" = .error e) := by
  constructor
  · have h := parse_week_filename_spec.1 '3' '9' "暂停".data [] (Or.inl rfl)
      (by decide) (by decide) (by decide) (by decide)
    simpa using h
  · apply parse_week_filename_spec.2
    rintro ⟨d₁, d₂, t, nl, hnl, hdata, -⟩
    have hlit : ("notes.md" : String).data = ['n', 'o', 't', 'e', 's', '.', 'm', 'd'] := rfl
    rw [hlit] at hdata
    injection hdata with h₁ _
    exact absurd h₁ (by decide)

/-!  ## The missing-divider run (claim C3) -/

/-- **C3.** When the source markdown has no line stripping to the divider
`---`, the run exits nonzero and neither `articles.json` nor `index.html`
is modified: the divider check (`parse_content`) precedes every write. -/
theorem main_missing_divider (srcName : String) (lines : List String) (fs : FS)
    (h : ∀ l ∈ lines, pyStrip l ≠ "---") :
    (runProcess srcName lines fs).2 ≠ 0 ∧
    (runProcess srcName lines fs).1.articlesDoc = fs.articlesDoc ∧
    (runProcess srcName lines fs).1.indexHtml = fs.indexHtml := by
  obtain ⟨e, he⟩ := parse_content_spec.1 lines h
  unfold runProcess mainModel
  cases hpw : parse_week_filename srcName with
  | error e₁ => exact ⟨by simp, by simp, by simp⟩
  | ok wt =>
    obtain ⟨w, t⟩ := wt
    cases hpq : parse_question lines with
    | error e₂ => exact ⟨by simp, by simp, by simp⟩
    | ok q =>
      rw [he]
      exact ⟨by simp, by simp, by simp⟩

/-- Witness for C3 at a concrete divider-free run. -/
theorem main_missing_divider_witness :
    (runProcess "Week01丨t.md" ["> q", "body"]
      { articlesDoc := { articles := [], completed := 0, total := 52, extra := [] },
        indexHtml := "H", assets := [] }).2 ≠ 0 ∧
    (runProcess "Week01丨t.md" ["> q", "body"]
      { articlesDoc := { articles := [], completed := 0, total := 52, extra := [] },
        indexHtml := "H", assets := [] }).1.articlesDoc
      = { articles := [], completed := 0, total := 52, extra := [] } ∧
    (runProcess "Week01丨t.md" ["> q", "body"]
      { articlesDoc := { articles := [], completed := 0, total := 52, extra := [] },
        indexHtml := "H", assets := [] }).1.indexHtml = "H" :=
  main_missing_divider _ _ _ (by decide)

/-!  ## Lemmas about substring search (`str.find`) -/

/-- Python `pat in s` (equivalently `s.find(pat) != -1`), decidably. -/
def containsSub (pat s : List Char) : Bool :=
  (pyFind pat s).isSome

theorem pyFind_eq_none_iff (pat s : List Char) :
    pyFind pat s = none ↔ ∀ i, ¬ pat <+: s.drop i := by
  induction s with
  | nil =>
    constructor
    · intro h i hp
      unfold pyFind at h
      split at h
      · exact absurd h (by simp)
      · rename_i hne
        rw [List.drop_nil] at hp
        exact hne (List.prefix_nil.mp hp)
    · intro h
      unfold pyFind
      rw [if_neg (fun hp => h 0 (by rw [hp]; exact List.nil_prefix))]
  | cons c t ih =>
    constructor
    · intro h i hp
      unfold pyFind at h
      split at h
      · exact absurd h (by simp)
      · rename_i hnp
        have ht : pyFind pat t = none := by
          cases hpt : pyFind pat t with
          | none => rfl
          | some j => rw [hpt] at h; exact absurd h (by simp)
        cases i with
        | zero => exact hnp (List.isPrefixOf_iff_prefix.mpr hp)
        | succ i' => exact (ih.mp ht) i' hp
    · intro h
      have h0 : ¬ pat <+: (c :: t) := by simpa using h 0
      unfold pyFind
      rw [if_neg (fun hp => h0 (List.isPrefixOf_iff_prefix.mp hp)),
        ih.mpr (fun i => h (i + 1))]
      rfl

theorem not_containsSub_iff (pat s : List Char) :
    containsSub pat s = false ↔ ∀ i, ¬ pat <+: s.drop i := by
  unfold containsSub
  rw [← pyFind_eq_none_iff]
  cases pyFind pat s <;> simp

theorem prefix_append_left_of_le {pat l₁ l₂ : List Char} (h : pat <+: l₁ ++ l₂)
    (hlen : pat.length ≤ l₁.length) : pat <+: l₁ := by
  have h1 := List.prefix_iff_eq_take.mp h
  rw [List.take_append_of_le_length hlen] at h1
  rw [h1]
  exact List.take_prefix _ _

/-- The pattern's first character occurs nowhere else in the pattern, so
occurrences cannot straddle a boundary placed right before the pattern. -/
def fcUnique (pat : List Char) : Prop :=
  ∀ k, k < pat.length → 0 < k → pat[k]? ≠ pat[0]?

theorem straddle_contra {pat l rest : List Char} (hp : pat <+: l ++ (pat ++ rest))
    (hl : 0 < l.length) (hlen : l.length < pat.length) (hfcu : fcUnique pat) :
    False := by
  obtain ⟨u, hu⟩ := hp
  have hne : 0 < pat.length := by omega
  have h₁ : (pat ++ u)[l.length]? = pat[l.length]? := by
    rw [List.getElem?_append]
    rw [if_pos hlen]
  have h₂ : (l ++ (pat ++ rest))[l.length]? = pat[0]? := by
    rw [List.getElem?_append_right (Nat.le_refl _), Nat.sub_self, List.getElem?_append]
    rw [if_pos hne]
  rw [hu, h₂] at h₁
  exact hfcu l.length hlen hl h₁.symm

theorem pyFind_pre_pat (pat pre post : List Char) (hne : pat ≠ [])
    (hfcu : fcUnique pat) (hnc : ∀ i, ¬ pat <+: pre.drop i) :
    pyFind pat (pre ++ (pat ++ post)) = some pre.length := by
  induction pre with
  | nil =>
    have hpre : pat <+: pat ++ post := List.prefix_append pat post
    rcases hp : pat ++ post with _ | ⟨c, rest⟩
    · exact absurd (List.append_eq_nil.mp hp).1 hne
    · have hpre' : pat <+: c :: rest := by rw [← hp]; exact hpre
      show pyFind pat (c :: rest) = some 0
      unfold pyFind
      rw [if_pos (List.isPrefixOf_iff_prefix.mpr hpre')]
  | cons x pre' ih =>
    have hih := ih (fun i => hnc (i + 1))
    show pyFind pat (x :: (pre' ++ (pat ++ post))) = some (pre'.length + 1)
    unfold pyFind
    rw [if_neg ?hnp, hih]
    · rfl
    case hnp =>
      intro hp
      have hp' : pat <+: (x :: pre') ++ (pat ++ post) :=
        List.isPrefixOf_iff_prefix.mp hp
      by_cases hlen : pat.length ≤ (x :: pre').length
      · exact hnc 0 (by simpa using prefix_append_left_of_le hp' hlen)
      · exact straddle_contra hp' (by simp) (by simp at hlen ⊢; omega) hfcu

theorem drop_append_ge (l₁ l₂ : List Char) (n : Nat) (h : l₁.length ≤ n) :
    (l₁ ++ l₂).drop n = l₂.drop (n - l₁.length) := by
  conv_lhs => rw [show n = l₁.length + (n - l₁.length) by omega]
  rw [List.drop_append]

/-!  ## The escaping step keeps the closing tag out of the payload -/

/-- A `<`-free pattern seen as a prefix of the escaped text was already a
prefix of the raw text: the replacement `<\/script>` is only ever entered
through its leading `<`. -/
theorem escape_prefix_transfer (p : List Char) (hlt : '<' ∉ p) :
    ∀ t, p <+: escapeCloseTag t → p <+: t := by
  intro t
  induction t generalizing p with
  | nil =>
    intro h
    rw [escapeCloseTag] at h
    rw [List.prefix_nil.mp h]
  | cons c t' ih =>
    intro h
    rw [escapeCloseTag] at h
    by_cases hcp : closeTagL.isPrefixOf (c :: t') = true
    · rw [if_pos hcp] at h
      cases p with
      | nil => exact List.nil_prefix
      | cons d p' =>
        have := (List.cons_prefix_cons.mp h).1
        exact absurd (this ▸ List.mem_cons_self d p') (by simpa [this] using hlt)
    · rw [if_neg hcp] at h
      cases p with
      | nil => exact List.nil_prefix
      | cons d p' =>
        obtain ⟨hdc, hp'⟩ := List.cons_prefix_cons.mp h
        have hlt' : '<' ∉ p' := fun hm => hlt (List.mem_cons_of_mem d hm)
        exact List.cons_prefix_cons.mpr ⟨hdc, ih p' hlt' hp'⟩

/-- After `inline.replace("</script>", "<\\/script>")` no occurrence of
`</script>` remains, so the inline payload cannot terminate the embedding
script element early. -/
theorem escape_no_close : ∀ (t : List Char) (i : Nat),
    ¬ closeTagL <+: (escapeCloseTag t).drop i
  | [], i => by
    rw [escapeCloseTag]
    intro hp
    rw [List.drop_nil] at hp
    exact absurd (List.prefix_nil.mp hp) (by decide)
  | c :: t', i => by
    rw [escapeCloseTag]
    by_cases hcp : closeTagL.isPrefixOf (c :: t') = true
    · rw [if_pos hcp]
      by_cases hi : 10 ≤ i
      · rw [drop_append_ge _ _ i (by simpa using hi)]
        exact escape_no_close (t'.drop 8) (i - ("<\\/script>".data).length)
      · intro hp
        obtain ⟨u, hu⟩ := hp
        have hk : ∀ k, k < 9 →
            closeTagL[k]? = ("<\\/script>".data ++ escapeCloseTag (t'.drop 8))[i + k]? := by
          intro k hk9
          have h₁ : (closeTagL ++ u)[k]? = closeTagL[k]? := by
            rw [List.getElem?_append]
            rw [if_pos (by simpa using hk9)]
          rw [← h₁, hu, List.getElem?_drop]
        rcases Nat.eq_zero_or_pos i with rfl | hipos
        · have h1 := hk 1 (by omega)
          rw [List.getElem?_append] at h1
          rw [if_pos (by decide)] at h1
          exact absurd h1 (by decide)
        · have h0 := hk 0 (by omega)
          rw [Nat.add_zero, List.getElem?_append] at h0
          rw [if_pos (show i < ("<\\/script>".data).length by
            have h10 : ("<\\/script>".data).length = 10 := rfl
            omega)] at h0
          interval_cases i <;> exact absurd h0 (by decide)
    · rw [if_neg hcp]
      cases i with
      | zero =>
        intro hp
        rw [List.drop_zero] at hp
        obtain ⟨hdc, hp'⟩ := List.cons_prefix_cons.mp hp
        have htail : "/script>".data <+: t' :=
          escape_prefix_transfer _ (by decide) t' hp'
        exact hcp (List.isPrefixOf_iff_prefix.mpr
          (List.cons_prefix_cons.mpr ⟨hdc, htail⟩))
      | succ i' => exact escape_no_close t' i'
termination_by t _ => t.length
decreasing_by
  · simp only [List.length_drop, List.length_cons]; omega
  · simp

/-- **C5.** `sync_inline_json` finds the first opening marker substring and
the next `</script>` after it, replaces the text between them with the
serialized document in which every literal `</script>` has been escaped
(so the escaped payload contains no occurrence of the closing tag at all),
and fails fatally when either marker is absent. -/
theorem sync_inline_json_spec :
    (∀ pre mid post inline : String,
      containsSub markerL pre.data = false →
      containsSub closeTagL mid.data = false →
      sync_inline_json
          (String.mk (pre.data ++ markerL ++ mid.data ++ closeTagL ++ post.data)) inline
        = .ok (String.mk (pre.data ++ markerL ++ escapeCloseTag inline.data
            ++ closeTagL ++ post.data)) ∧
      containsSub closeTagL (escapeCloseTag inline.data) = false) ∧
    (∀ html inline : String, containsSub markerL html.data = false →
      sync_inline_json html inline
        = .error "Cannot find <script id=\"articles-data\" ...> in index.html") ∧
    (∀ pre tl inline : String,
      containsSub markerL pre.data = false →
      containsSub closeTagL tl.data = false →
      sync_inline_json (String.mk (pre.data ++ markerL ++ tl.data)) inline
        = .error "Cannot find closing </script> for articles-data in index.html") := by
  have hmne : markerL ≠ [] := by decide
  have hcne : closeTagL ≠ [] := by decide
  have hmfc : fcUnique markerL := by unfold fcUnique; decide
  have hcfc : fcUnique closeTagL := by unfold fcUnique; decide
  refine ⟨?_, ?_, ?_⟩
  · intro pre mid post inline hpre hmid
    have hnpre := (not_containsSub_iff _ _).mp hpre
    have hnmid := (not_containsSub_iff _ _).mp hmid
    have h1 : pyFind markerL (pre.data ++ markerL ++ mid.data ++ closeTagL ++ post.data)
        = some pre.data.length := by
      rw [show pre.data ++ markerL ++ mid.data ++ closeTagL ++ post.data
          = pre.data ++ (markerL ++ (mid.data ++ closeTagL ++ post.data)) by
        simp [List.append_assoc]]
      exact pyFind_pre_pat markerL pre.data _ hmne hmfc hnpre
    have h2 : (pre.data ++ markerL ++ mid.data ++ closeTagL ++ post.data).drop
        (pre.data.length + markerL.length) = mid.data ++ closeTagL ++ post.data := by
      rw [show pre.data ++ markerL ++ mid.data ++ closeTagL ++ post.data
          = (pre.data ++ markerL) ++ (mid.data ++ closeTagL ++ post.data) by
        simp [List.append_assoc], ← List.length_append]
      exact List.drop_left _ _
    have h3 : pyFind closeTagL (mid.data ++ closeTagL ++ post.data)
        = some mid.data.length := by
      rw [show mid.data ++ closeTagL ++ post.data
          = mid.data ++ (closeTagL ++ post.data) by simp [List.append_assoc]]
      exact pyFind_pre_pat closeTagL mid.data _ hcne hcfc hnmid
    have h4 : (pre.data ++ markerL ++ mid.data ++ closeTagL ++ post.data).take
        (pre.data.length + markerL.length) = pre.data ++ markerL := by
      rw [show pre.data ++ markerL ++ mid.data ++ closeTagL ++ post.data
          = (pre.data ++ markerL) ++ (mid.data ++ closeTagL ++ post.data) by
        simp [List.append_assoc], ← List.length_append]
      exact List.take_left _ _
    have h5 : (pre.data ++ markerL ++ mid.data ++ closeTagL ++ post.data).drop
        (pre.data.length + markerL.length + mid.data.length) = closeTagL ++ post.data := by
      rw [show pre.data ++ markerL ++ mid.data ++ closeTagL ++ post.data
          = (pre.data ++ markerL ++ mid.data) ++ (closeTagL ++ post.data) by
        simp [List.append_assoc]]
      rw [show pre.data.length + markerL.length + mid.data.length
          = (pre.data ++ markerL ++ mid.data).length by
        rw [List.length_append, List.length_append]]
      exact List.drop_left _ _
    constructor
    · unfold sync_inline_json
      rw [show (String.mk (pre.data ++ markerL ++ mid.data ++ closeTagL ++ post.data)).data
          = pre.data ++ markerL ++ mid.data ++ closeTagL ++ post.data from rfl, h1]
      simp only [h2, h3, h4, h5]
      simp [List.append_assoc]
    · exact (not_containsSub_iff _ _).mpr (escape_no_close inline.data)
  · intro html inline h
    have hn := (not_containsSub_iff _ _).mp h
    unfold sync_inline_json
    rw [(pyFind_eq_none_iff markerL html.data).mpr hn]
  · intro pre tl inline hpre htl
    have hnpre := (not_containsSub_iff _ _).mp hpre
    have hntl := (not_containsSub_iff _ _).mp htl
    have h1 : pyFind markerL (pre.data ++ markerL ++ tl.data) = some pre.data.length := by
      rw [List.append_assoc]
      exact pyFind_pre_pat markerL pre.data _ hmne hmfc hnpre
    have h2 : (pre.data ++ markerL ++ tl.data).drop (pre.data.length + markerL.length)
        = tl.data := by
      rw [← List.length_append]
      exact List.drop_left _ _
    unfold sync_inline_json
    rw [show (String.mk (pre.data ++ markerL ++ tl.data)).data
        = pre.data ++ markerL ++ tl.data from rfl, h1]
    simp only [h2, (pyFind_eq_none_iff closeTagL tl.data).mpr hntl]

/-- Witness for C5: a concrete page gets its span replaced with the escaped
payload, and a page without the marker fails. -/
theorem sync_inline_json_spec_witness :
    (sync_inline_json
        (String.mk ("<html>".data ++ markerL ++ "OLD".data ++ closeTagL ++ "</html>".data))
        "A</script>B"
      = .ok (String.mk ("<html>".data ++ markerL
          ++ escapeCloseTag ("A</script>B".data) ++ closeTagL ++ "</html>".data)) ∧
      containsSub closeTagL (escapeCloseTag ("A</script>B".data)) = false) ∧
    sync_inline_json "<html>no marker</html>" "x"
      = .error "Cannot find <script id=\"articles-data\" ...> in index.html" := by
  constructor
  · exact sync_inline_json_spec.1 "<html>" "OLD" "</html>" "A</script>B"
      (by decide) (by decide)
  · exact sync_inline_json_spec.2.1 "<html>no marker</html>" "x" (by decide)

/-!  ## Lemmas about `convert_and_rewrite_assets_in_content` -/

theorem lcase_eq_dot {c : Char} (h : lcase c = '.') : c = '.' := by
  unfold lcase at h
  split at h
  · rename_i hr
    exfalso
    have h1 : c.toNat ≤ 90 := hr.2
    have h65 : 65 ≤ c.toNat := hr.1
    have hv : (c.toNat + 32).isValidChar := by
      left
      omega
    have := congrArg Char.toNat h
    rw [show (Char.ofNat (c.toNat + 32)).toNat = c.toNat + 32 by
      unfold Char.ofNat; rw [dif_pos hv]; rfl] at this
    have h46 : ('.').toNat = 46 := rfl
    rw [h46] at this
    omega
  · exact h

theorem tryAssetMatch_cons_ne {c : Char} (t : List Char) (hc : c ≠ '.') :
    tryAssetMatch (c :: t) = none := by
  unfold tryAssetMatch
  rw [if_neg]
  intro hcond
  rw [List.take_succ_cons, List.map_cons] at hcond
  exact hc (lcase_eq_dot (List.cons.injEq _ _ _ _ ▸ hcond).1)

theorem rewriteGo_cons_none {ex : String → Bool} {c : Char} {t : List Char}
    (h : tryAssetMatch (c :: t) = none) :
    rewriteGo ex (c :: t) = c :: rewriteGo ex t := by
  rw [rewriteGo]
  split
  · rename_i b e n hsome
    rw [h] at hsome
    cases hsome
  · rfl

theorem rewriteGo_cons_some {ex : String → Bool} {c : Char} {t b e : List Char} {n : Nat}
    (h : tryAssetMatch (c :: t) = some (b, e, n)) :
    rewriteGo ex (c :: t)
      = (if ex (String.mk (normPathOf (b ++ '.' :: e))) then webpPathOf (b ++ '.' :: e)
         else (c :: t).take n)
        ++ rewriteGo ex ((c :: t).drop n) := by
  rw [rewriteGo]
  split
  · rename_i b' e' n' hsome
    rw [h] at hsome
    injection hsome with hpair
    injection hpair with hb hen
    injection hen with he hn
    subst hb
    subst he
    subst hn
    rfl
  · rename_i hnone
    rw [h] at hnone
    cases hnone

theorem rewriteGo_append_nodot (ex : String → Bool) (pre s : List Char)
    (h : ∀ c ∈ pre, c ≠ '.') :
    rewriteGo ex (pre ++ s) = pre ++ rewriteGo ex s := by
  induction pre with
  | nil => rfl
  | cons c pre' ih =>
    rw [List.cons_append,
      rewriteGo_cons_none (tryAssetMatch_cons_ne _ (h c (List.mem_cons_self c pre'))),
      ih (fun x hx => h x (List.mem_cons_of_mem c hx))]
    rfl

theorem takeWhile_append_all {p : Char → Bool} {l₁ : List Char} (l₂ : List Char)
    (h : ∀ c ∈ l₁, p c = true) :
    (l₁ ++ l₂).takeWhile p = l₁ ++ l₂.takeWhile p := by
  induction l₁ with
  | nil => rfl
  | cons c t ih =>
    rw [List.cons_append, List.takeWhile_cons, if_pos (h c (List.mem_cons_self c t)),
      ih (fun x hx => h x (List.mem_cons_of_mem c hx)), List.cons_append]

theorem takeWhile_cons_stop {p : Char → Bool} {c : Char} (l : List Char)
    (h : p c = false) : (c :: l).takeWhile p = [] := by
  rw [List.takeWhile_cons, if_neg (by rw [h]; simp)]

theorem splitSlash_no_slash (l : List Char) (h : ∀ c ∈ l, c ≠ '/') :
    splitSlash l = [l] := by
  induction l with
  | nil => rfl
  | cons c t ih =>
    unfold splitSlash
    rw [if_neg (h c (List.mem_cons_self c t)),
      ih (fun x hx => h x (List.mem_cons_of_mem c hx))]

theorem splitSlash_append (l₁ l₂ : List Char) (h : ∀ c ∈ l₁, c ≠ '/') :
    splitSlash (l₁ ++ '/' :: l₂) = l₁ :: splitSlash l₂ := by
  induction l₁ with
  | nil =>
    show splitSlash ('/' :: l₂) = [] :: splitSlash l₂
    conv_lhs => unfold splitSlash
    rw [if_pos rfl]
  | cons c t ih =>
    show splitSlash (c :: (t ++ '/' :: l₂)) = (c :: t) :: splitSlash l₂
    conv_lhs => unfold splitSlash
    rw [if_neg (h c (List.mem_cons_self c t)),
      ih (fun x hx => h x (List.mem_cons_of_mem c hx))]

theorem tailLen_occ (A E : List Char) (hEdot : ∀ c ∈ E, c ≠ '.') :
    tailLen (A ++ '.' :: E) = E.length := by
  unfold tailLen
  have hrev : (A ++ '.' :: E).reverse = E.reverse ++ '.' :: A.reverse := by
    rw [List.reverse_append, List.reverse_cons]
    simp [List.append_assoc]
  rw [hrev, takeWhile_append_all _ (fun c hc => by
      simpa using hEdot c (by simpa using hc)),
    takeWhile_cons_stop _ (by simp)]
  simp

theorem stemOfName_occ (A E : List Char) (hAne : A ≠ []) (hEne : E ≠ [])
    (hEdot : ∀ c ∈ E, c ≠ '.') :
    stemOfName (A ++ '.' :: E) = A := by
  have hA1 : 1 ≤ A.length := List.length_pos.mpr hAne
  have hE1 : 1 ≤ E.length := List.length_pos.mpr hEne
  have hlen : (A ++ '.' :: E).length = A.length + 1 + E.length := by simp; omega
  unfold stemOfName
  rw [tailLen_occ A E hEdot, hlen,
    if_neg (show ¬ (E.length = A.length + 1 + E.length ∨ E.length = 0 ∨
      E.length = A.length + 1 + E.length - 1) by omega)]
  rw [show A.length + 1 + E.length - 1 - E.length = A.length by omega]
  exact List.take_left A ('.' :: E)

theorem splitSlash_ne_nil (l : List Char) : splitSlash l ≠ [] := by
  cases l with
  | nil => simp [splitSlash]
  | cons c t =>
    unfold splitSlash
    split
    · simp
    · split <;> simp

/-- `splitSlash` is a proper splitting: joining the pieces with `/`
restores the list. -/
theorem intercalateSlash_splitSlash (l : List Char) :
    intercalateSlash (splitSlash l) = l := by
  induction l with
  | nil => rfl
  | cons c t ih =>
    by_cases hc : c = '/'
    · subst hc
      show intercalateSlash (splitSlash ('/' :: t)) = '/' :: t
      conv_lhs => unfold splitSlash
      rw [if_pos rfl]
      cases hs : splitSlash t with
      | nil => exact absurd hs (splitSlash_ne_nil t)
      | cons x xs =>
        show [] ++ '/' :: intercalateSlash (x :: xs) = '/' :: t
        rw [List.nil_append, ← hs, ih]
    · conv_lhs => unfold splitSlash
      rw [if_neg hc]
      cases hs : splitSlash t with
      | nil => exact absurd hs (splitSlash_ne_nil t)
      | cons x xs =>
        have hjoin : intercalateSlash (x :: xs) = t := by rw [← hs, ih]
        cases xs with
        | nil =>
          show c :: x = c :: t
          exact congrArg (c :: ·) hjoin
        | cons y ys =>
          show (c :: x) ++ '/' :: intercalateSlash (y :: ys) = c :: t
          rw [List.cons_append]
          exact congrArg (c :: ·) hjoin

/-- Appending a slash-free tail extends the last `/`-component. -/
theorem splitSlash_append_last (A tail : List Char) (htail : ∀ c ∈ tail, c ≠ '/') :
    ∃ C p, splitSlash A = C ++ [p] ∧ splitSlash (A ++ tail) = C ++ [p ++ tail] := by
  induction A with
  | nil =>
    exact ⟨[], [], rfl, by rw [List.nil_append, splitSlash_no_slash tail htail]; rfl⟩
  | cons c A' ih =>
    obtain ⟨C, p, h1, h2⟩ := ih
    by_cases hc : c = '/'
    · subst hc
      refine ⟨[] :: C, p, ?_, ?_⟩
      · show splitSlash ('/' :: A') = ([] :: C) ++ [p]
        conv_lhs => unfold splitSlash
        rw [if_pos rfl, h1]
        rfl
      · show splitSlash ('/' :: (A' ++ tail)) = ([] :: C) ++ [p ++ tail]
        conv_lhs => unfold splitSlash
        rw [if_pos rfl, h2]
        rfl
    · cases C with
      | nil =>
        refine ⟨[], c :: p, ?_, ?_⟩
        · conv_lhs => unfold splitSlash
          rw [if_neg hc, h1]
          rfl
        · show splitSlash (c :: (A' ++ tail)) = [] ++ [(c :: p) ++ tail]
          conv_lhs => unfold splitSlash
          rw [if_neg hc, h2]
          rfl
      | cons x C'' =>
        refine ⟨(c :: x) :: C'', p, ?_, ?_⟩
        · conv_lhs => unfold splitSlash
          rw [if_neg hc, h1]
          rfl
        · show splitSlash (c :: (A' ++ tail)) = ((c :: x) :: C'') ++ [p ++ tail]
          conv_lhs => unfold splitSlash
          rw [if_neg hc, h2]
          rfl

/-- Appending to the last component appends after the join. -/
theorem intercalateSlash_append_last (C : List (List Char)) (p X : List Char) :
    intercalateSlash (C ++ [p ++ X]) = intercalateSlash (C ++ [p]) ++ X := by
  induction C with
  | nil => rfl
  | cons x C' ih =>
    cases C' with
    | nil =>
      show x ++ '/' :: (p ++ X) = (x ++ '/' :: p) ++ X
      simp
    | cons y C'' =>
      show x ++ '/' :: intercalateSlash ((y :: C'') ++ [p ++ X])
        = (x ++ '/' :: intercalateSlash ((y :: C'') ++ [p])) ++ X
      rw [ih]
      simp

/-- The components of a `./assets/…` occurrence whose base has clean
components (no empty and no `.` parts): `assets`, then the base's
components with the last extended by the dot and extension — nothing is
dropped by normalization. -/
theorem normComps_occ (A E : List Char)
    (hcomp : ∀ q ∈ splitSlash A, q ≠ [] ∧ q ≠ ['.'])
    (hEslash : ∀ c ∈ E, c ≠ '/') :
    ∃ C p, splitSlash A = C ++ [p] ∧
      normComps (("assets/".data ++ A) ++ '.' :: E)
        = "assets".data :: (C ++ [p ++ '.' :: E]) := by
  obtain ⟨C, p, h1, h2⟩ := splitSlash_append_last A ('.' :: E)
    (fun c hc => by
      rcases List.mem_cons.mp hc with rfl | hcE
      · decide
      · exact hEslash c hcE)
  refine ⟨C, p, h1, ?_⟩
  have hshape : ("assets/".data ++ A) ++ '.' :: E
      = "assets".data ++ '/' :: (A ++ '.' :: E) := by simp
  unfold normComps
  rw [hshape, splitSlash_append _ _ (by decide), h2,
    List.filter_cons, if_pos (by decide)]
  congr 1
  apply List.filter_eq_self.mpr
  intro q hq
  rcases List.mem_append.mp hq with hqC | hqP
  · have hqA : q ∈ splitSlash A := by rw [h1]; exact List.mem_append_left _ hqC
    exact decide_eq_true ⟨(hcomp q hqA).1, (hcomp q hqA).2⟩
  · have hq' : q = p ++ '.' :: E := by simpa using hqP
    subst hq'
    have hp : p ≠ [] :=
      (hcomp p (by rw [h1]; exact List.mem_append_right _ (by simp))).1
    have hp1 : 1 ≤ p.length := List.length_pos.mpr hp
    refine decide_eq_true ⟨by simp, fun hcon => ?_⟩
    have hlc := congrArg List.length hcon
    simp only [List.length_append, List.length_cons, List.length_nil] at hlc
    omega

theorem normPathOf_occ (A E : List Char)
    (hcomp : ∀ q ∈ splitSlash A, q ≠ [] ∧ q ≠ ['.'])
    (hEslash : ∀ c ∈ E, c ≠ '/') :
    normPathOf (("./assets/".data ++ A) ++ '.' :: E)
      = ("./assets/".data ++ A) ++ '.' :: E := by
  obtain ⟨C, p, h1, h2⟩ := normComps_occ A E hcomp hEslash
  have hdrop : (("./assets/".data ++ A) ++ '.' :: E).drop 2
      = ("assets/".data ++ A) ++ '.' :: E := rfl
  unfold normPathOf
  rw [hdrop, h2]
  have harm : intercalateSlash ("assets".data :: (C ++ [p ++ '.' :: E]))
      = "assets".data ++ '/' :: intercalateSlash (C ++ [p ++ '.' :: E]) := by
    cases hC : C ++ [p ++ '.' :: E] with
    | nil => exact absurd hC (by simp)
    | cons x xs => rfl
  rw [harm, intercalateSlash_append_last C p ('.' :: E),
    show intercalateSlash (C ++ [p]) = A from by
      rw [← h1]; exact intercalateSlash_splitSlash A]
  simp

theorem webpPathOf_occ (A E : List Char)
    (hcomp : ∀ q ∈ splitSlash A, q ≠ [] ∧ q ≠ ['.'])
    (hEne : E ≠ []) (hEdot : ∀ c ∈ E, c ≠ '.') (hEslash : ∀ c ∈ E, c ≠ '/') :
    webpPathOf (("./assets/".data ++ A) ++ '.' :: E)
      = ("./assets/".data ++ A) ++ ".webp".data := by
  obtain ⟨C, p, h1, h2⟩ := normComps_occ A E hcomp hEslash
  have hp : p ≠ [] :=
    (hcomp p (by rw [h1]; exact List.mem_append_right _ (by simp))).1
  have hdrop : (("./assets/".data ++ A) ++ '.' :: E).drop 2
      = ("assets/".data ++ A) ++ '.' :: E := rfl
  unfold webpPathOf
  rw [hdrop, h2]
  have hrev : ("assets".data :: (C ++ [p ++ '.' :: E])).reverse
      = (p ++ '.' :: E) :: (C.reverse ++ ["assets".data]) := by simp
  rw [hrev]
  show "./".data ++ intercalateSlash
      ((C.reverse ++ ["assets".data]).reverse ++ [stemOfName (p ++ '.' :: E) ++ ".webp".data])
    = ("./assets/".data ++ A) ++ ".webp".data
  rw [stemOfName_occ p E hp hEne hEdot,
    show (C.reverse ++ ["assets".data]).reverse = "assets".data :: C from by simp]
  have harm : intercalateSlash (("assets".data :: C) ++ [p ++ ".webp".data])
      = "assets".data ++ '/' :: intercalateSlash (C ++ [p ++ ".webp".data]) := by
    rw [show ("assets".data :: C) ++ [p ++ ".webp".data]
        = "assets".data :: (C ++ [p ++ ".webp".data]) from rfl]
    cases hC : C ++ [p ++ ".webp".data] with
    | nil => exact absurd hC (by simp)
    | cons x xs => rfl
  rw [harm, intercalateSlash_append_last C p (".webp".data),
    show intercalateSlash (C ++ [p]) = A from by
      rw [← h1]; exact intercalateSlash_splitSlash A]
  simp

theorem extAt_png (post : List Char) : extAt ("png".data ++ post) = some "png".data := by
  have h3 : ("png".data ++ post).take 3 = "png".data := rfl
  unfold extAt
  rw [h3, if_pos (by decide)]

theorem extAt_jpg (post : List Char) : extAt ("jpg".data ++ post) = some "jpg".data := by
  have h3 : ("jpg".data ++ post).take 3 = "jpg".data := rfl
  have h4 : ("jpg".data ++ post).take 4 = 'j' :: 'p' :: 'g' :: post.take 1 := rfl
  unfold extAt
  rw [h3, if_neg (by decide), h4, if_neg ?hne, if_pos (by decide)]
  case hne =>
    intro hcond
    rw [List.map_cons, List.map_cons, List.map_cons] at hcond
    injection hcond with h₁ hcond
    injection hcond with h₂ hcond
    injection hcond with h₃ hcond
    exact absurd h₃ (by decide)

theorem extAt_jpeg (post : List Char) : extAt ("jpeg".data ++ post) = some "jpeg".data := by
  have h3 : ("jpeg".data ++ post).take 3 = ['j', 'p', 'e'] := rfl
  have h4 : ("jpeg".data ++ post).take 4 = "jpeg".data := rfl
  unfold extAt
  rw [h3, if_neg (by decide), h4, if_pos (by decide)]

theorem splitAux_step_ne (t : List Char) (j : Nat) (h : ¬ t[j + 1]? = some '.') :
    splitAux t (j + 1) = splitAux t j := by
  rw [splitAux, if_neg h]

theorem splitAux_hit (t : List Char) (j : Nat) (e : List Char)
    (hdot : t[j + 1]? = some '.') (hext : extAt (t.drop (j + 2)) = some e) :
    splitAux t (j + 1) = some (j + 1, e) := by
  rw [splitAux, if_pos hdot, hext]

theorem splitAux_skip (t : List Char) (j k : Nat)
    (h : ∀ i, j < i → i ≤ j + k → ¬ t[i]? = some '.') :
    splitAux t (j + k) = splitAux t j := by
  induction k with
  | zero => rfl
  | succ k ih =>
    rw [show j + (k + 1) = (j + k) + 1 from rfl,
      splitAux_step_ne t (j + k) (h (j + k + 1) (by omega) (by omega))]
    exact ih (fun i hi1 hi2 => h i hi1 (by omega))

theorem runLen_occ (A E post : List Char)
    (hA : ∀ c ∈ A, assetAllowed c = true)
    (hE : ∀ c ∈ E, assetAllowed c = true)
    (hpost : post = [] ∨ ∃ d ds, post = d :: ds ∧ assetAllowed d = false) :
    runLen (A ++ '.' :: (E ++ post)) = A.length + 1 + E.length := by
  have hposttw : post.takeWhile assetAllowed = [] := by
    rcases hpost with rfl | ⟨d, ds, rfl, hd⟩
    · rfl
    · exact takeWhile_cons_stop ds hd
  unfold runLen
  rw [takeWhile_append_all _ hA, List.takeWhile_cons, if_pos (by decide),
    takeWhile_append_all _ hE, hposttw]
  simp
  omega

theorem findSplit_occ (A E post : List Char) (hAne : A ≠ [])
    (hAall : ∀ c ∈ A, assetAllowed c = true)
    (hEall : ∀ c ∈ E, assetAllowed c = true)
    (hEdot : ∀ c ∈ E, c ≠ '.')
    (hpost : post = [] ∨ ∃ d ds, post = d :: ds ∧ assetAllowed d = false)
    (hext : extAt (E ++ post) = some E) :
    findSplit (A ++ '.' :: (E ++ post)) = some (A.length, E) := by
  have hidx : ∀ i, A.length < i → i ≤ A.length + (1 + E.length) →
      ¬ (A ++ '.' :: (E ++ post))[i]? = some '.' := by
    intro i h1 h2 hdot
    have hge : A.length ≤ i := by omega
    rw [List.getElem?_append_right hge] at hdot
    obtain ⟨m, hm⟩ : ∃ m, i - A.length = m + 1 := ⟨i - A.length - 1, by omega⟩
    rw [hm, List.getElem?_cons_succ] at hdot
    by_cases hmE : m < E.length
    · rw [List.getElem?_append] at hdot
      rw [if_pos hmE] at hdot
      exact hEdot '.' (List.getElem?_mem hdot) rfl
    · have hle : E.length ≤ m := by omega
      rw [List.getElem?_append_right hle] at hdot
      rcases hpost with rfl | ⟨d, ds, rfl, hd⟩
      · simp at hdot
      · have hmz : m - E.length = 0 := by omega
        rw [hmz, List.getElem?_cons_zero] at hdot
        injection hdot with hd'
        rw [hd'] at hd
        exact absurd hd (by decide)
  unfold findSplit
  rw [runLen_occ A E post hAall hEall hpost,
    show A.length + 1 + E.length = A.length + (1 + E.length) from by omega,
    splitAux_skip _ A.length (1 + E.length) hidx]
  cases A with
  | nil => exact absurd rfl hAne
  | cons a A' =>
    show splitAux ((a :: A') ++ '.' :: (E ++ post)) (A'.length + 1)
      = some ((a :: A').length, E)
    have hdot : ((a :: A') ++ '.' :: (E ++ post))[A'.length + 1]? = some '.' := by
      rw [show A'.length + 1 = (a :: A').length from rfl,
        List.getElem?_append_right (Nat.le_refl _), Nat.sub_self,
        List.getElem?_cons_zero]
    have hextd : extAt (((a :: A') ++ '.' :: (E ++ post)).drop (A'.length + 2))
        = some E := by
      rw [show (a :: A') ++ '.' :: (E ++ post) = ((a :: A') ++ ['.']) ++ (E ++ post) by simp,
        show A'.length + 2 = ((a :: A') ++ ['.']).length from by simp,
        List.drop_left]
      exact hext
    rw [splitAux_hit _ A'.length E hdot hextd]
    rfl

theorem tryAssetMatch_occ (A E post : List Char)
    (hfs : findSplit (A ++ '.' :: (E ++ post)) = some (A.length, E)) :
    tryAssetMatch ("./assets/".data ++ (A ++ '.' :: (E ++ post)))
      = some ("./assets/".data ++ A, E, 9 + A.length + 1 + E.length) := by
  have h9 : (("./assets/".data ++ (A ++ '.' :: (E ++ post))).take 9).map lcase
      = ['.', '/', 'a', 's', 's', 'e', 't', 's', '/'] := rfl
  have hdrop9 : ("./assets/".data ++ (A ++ '.' :: (E ++ post))).drop 9
      = A ++ '.' :: (E ++ post) := rfl
  have htake : ("./assets/".data ++ (A ++ '.' :: (E ++ post))).take (9 + A.length)
      = "./assets/".data ++ A := by
    rw [show (9 : Nat) + A.length = ("./assets/".data).length + A.length from rfl,
      List.take_append, List.take_left]
  unfold tryAssetMatch
  rw [if_pos h9, hdrop9, hfs]
  simp only [htake]

theorem rewriteGo_occ (ex : String → Bool) (A E post : List Char)
    (hAall : ∀ c ∈ A, assetAllowed c = true)
    (hcomp : ∀ q ∈ splitSlash A, q ≠ [] ∧ q ≠ ['.'])
    (hE : E = "png".data ∨ E = "jpg".data ∨ E = "jpeg".data)
    (hpost : post = [] ∨ ∃ d ds, post = d :: ds ∧ assetAllowed d = false) :
    rewriteGo ex ("./assets/".data ++ (A ++ '.' :: (E ++ post)))
      = (if ex (String.mk (("./assets/".data ++ A) ++ '.' :: E))
         then ("./assets/".data ++ A) ++ ".webp".data
         else ("./assets/".data ++ A) ++ '.' :: E)
        ++ rewriteGo ex post := by
  have hAne : A ≠ [] := by
    intro h
    subst h
    exact (hcomp [] (by simp [splitSlash])).1 rfl
  have hEne : E ≠ [] := by rcases hE with rfl | rfl | rfl <;> decide
  have hEall : ∀ c ∈ E, assetAllowed c = true := by
    rcases hE with rfl | rfl | rfl <;> decide
  have hEdot : ∀ c ∈ E, c ≠ '.' := by
    rcases hE with rfl | rfl | rfl <;> decide
  have hEslash : ∀ c ∈ E, c ≠ '/' := by
    rcases hE with rfl | rfl | rfl <;> decide
  have hext : extAt (E ++ post) = some E := by
    rcases hE with rfl | rfl | rfl
    · exact extAt_png post
    · exact extAt_jpg post
    · exact extAt_jpeg post
  have htry := tryAssetMatch_occ A E post
    (findSplit_occ A E post hAne hAall hEall hEdot hpost hext)
  have hocc : "./assets/".data ++ (A ++ '.' :: (E ++ post))
      = '.' :: ("/assets/".data ++ (A ++ '.' :: (E ++ post))) := rfl
  have htry' : tryAssetMatch ('.' :: ("/assets/".data ++ (A ++ '.' :: (E ++ post))))
      = some ("./assets/".data ++ A, E, 9 + A.length + 1 + E.length) := by
    rw [← hocc]; exact htry
  have htaken : ('.' :: ("/assets/".data ++ (A ++ '.' :: (E ++ post)))).take
      (9 + A.length + 1 + E.length) = ("./assets/".data ++ A) ++ '.' :: E := by
    rw [← hocc,
      show 9 + A.length + 1 + E.length
        = ("./assets/".data).length + (A.length + (1 + E.length)) from by
          rw [show ("./assets/".data).length = 9 from rfl]; omega,
      List.take_append, List.take_append,
      show 1 + E.length = E.length + 1 from by omega, List.take_succ_cons,
      List.take_left]
    simp
  have hdropn : ('.' :: ("/assets/".data ++ (A ++ '.' :: (E ++ post)))).drop
      (9 + A.length + 1 + E.length) = post := by
    rw [← hocc,
      show 9 + A.length + 1 + E.length
        = ("./assets/".data).length + (A.length + (1 + E.length)) from by
          rw [show ("./assets/".data).length = 9 from rfl]; omega,
      List.drop_append, List.drop_append,
      show 1 + E.length = E.length + 1 from by omega, List.drop_succ_cons,
      List.drop_left]
  rw [hocc, rewriteGo_cons_some htry', htaken, hdropn,
    normPathOf_occ A E hcomp hEslash,
    webpPathOf_occ A E hcomp hEne hEdot hEslash]

theorem lcase_eq_slash {c : Char} (h : lcase c = '/') : c = '/' := by
  unfold lcase at h
  split at h
  · rename_i hr
    exfalso
    have h1 : c.toNat ≤ 90 := hr.2
    have h65 : 65 ≤ c.toNat := hr.1
    have hv : (c.toNat + 32).isValidChar := by
      left
      omega
    have := congrArg Char.toNat h
    rw [show (Char.ofNat (c.toNat + 32)).toNat = c.toNat + 32 by
      unfold Char.ofNat; rw [dif_pos hv]; rfl] at this
    have h47 : ('/').toNat = 47 := rfl
    rw [h47] at this
    omega
  · exact h

/-- A successful regex match starts with the literal characters `./`. -/
theorem tryAssetMatch_start {c : Char} {t : List Char}
    {r : List Char × List Char × Nat}
    (h : tryAssetMatch (c :: t) = some r) : c = '.' ∧ ∃ t', t = '/' :: t' := by
  unfold tryAssetMatch at h
  split at h
  · rename_i hcond
    rw [show (c :: t).take 9 = c :: t.take 8 from rfl, List.map_cons] at hcond
    injection hcond with h1 hcond
    refine ⟨lcase_eq_dot h1, ?_⟩
    cases t with
    | nil => exact absurd hcond (by simp)
    | cons u t'' =>
      rw [show (u :: t'').take 8 = u :: t''.take 7 from rfl, List.map_cons] at hcond
      injection hcond with h2 _
      exact ⟨t'', by rw [lcase_eq_slash h2]⟩
  · exact absurd h (by simp)

/-- Text containing no `./` substring passes through the scanner verbatim:
every match must start with the two characters `./`, and the text that
follows does not begin with `/`, so no match can start at the final
character either. -/
theorem rewriteGo_append_gap (ex : String → Bool) (g s : List Char)
    (hg : ∀ i, ¬ ['.', '/'] <+: g.drop i)
    (hs : ∀ s', s ≠ '/' :: s') :
    rewriteGo ex (g ++ s) = g ++ rewriteGo ex s := by
  induction g with
  | nil => rfl
  | cons c g' ih =>
    have hnm : tryAssetMatch (c :: (g' ++ s)) = none := by
      cases htm : tryAssetMatch (c :: (g' ++ s)) with
      | none => rfl
      | some r =>
        exfalso
        obtain ⟨rfl, t', ht'⟩ := tryAssetMatch_start htm
        cases g' with
        | nil =>
          rw [List.nil_append] at ht'
          exact hs t' ht'
        | cons d g'' =>
          injection ht' with hd _
          exact hg 0 (by rw [List.drop_zero, hd]; exact ⟨g'', rfl⟩)
    rw [List.cons_append, rewriteGo_cons_none hnm, ih (fun i => hg (i + 1)),
      List.cons_append]

/-- The scanner leaves a final `./`-free stretch of text unchanged. -/
theorem rewriteGo_gap_only (ex : String → Bool) (g : List Char)
    (hg : ∀ i, ¬ ['.', '/'] <+: g.drop i) :
    rewriteGo ex g = g := by
  have h := rewriteGo_append_gap ex g [] hg (fun s' hcon => List.noConfusion hcon)
  rw [List.append_nil] at h
  have h0 : rewriteGo ex ([] : List Char) = [] := by rw [rewriteGo]
  rw [h, h0, List.append_nil]

/-- Scanner behaviour on a whole content string decomposed into gaps and
occurrences: every gap passes through verbatim and every occurrence is
replaced or kept according to the existence check. -/
theorem rewriteGo_segments (ex : String → Bool) :
    ∀ (segs : List (List Char × List Char × List Char)) (gEnd : List Char),
    (∀ s ∈ segs, containsSub ['.', '/'] s.1 = false) →
    containsSub ['.', '/'] gEnd = false →
    (∀ s ∈ segs, (∀ c ∈ s.2.1, assetAllowed c = true) ∧
      (∀ q ∈ splitSlash s.2.1, q ≠ [] ∧ q ≠ ['.'])) →
    (∀ s ∈ segs, s.2.2 = "png".data ∨ s.2.2 = "jpg".data ∨ s.2.2 = "jpeg".data) →
    (∀ s ∈ segs.drop 1, ∃ d ds, s.1 = d :: ds ∧ assetAllowed d = false) →
    (gEnd = [] ∨ ∃ d ds, gEnd = d :: ds ∧ assetAllowed d = false) →
    rewriteGo ex ((segs.map (fun s =>
        s.1 ++ ("./assets/".data ++ s.2.1 ++ '.' :: s.2.2))).flatten ++ gEnd)
      = (segs.map (fun s =>
        s.1 ++ (if ex (String.mk ("./assets/".data ++ s.2.1 ++ '.' :: s.2.2))
          then "./assets/".data ++ s.2.1 ++ ".webp".data
          else "./assets/".data ++ s.2.1 ++ '.' :: s.2.2))).flatten ++ gEnd
  | [], gEnd, _, hgEnd, _, _, _, _ =>
    rewriteGo_gap_only ex gEnd ((not_containsSub_iff _ _).mp hgEnd)
  | (g, A, E) :: rest, gEnd, hgaps, hgEnd, hA, hE, hsep, hend => by
    have hpostT : ((rest.map (fun s =>
        s.1 ++ ("./assets/".data ++ s.2.1 ++ '.' :: s.2.2))).flatten ++ gEnd) = [] ∨
        ∃ d ds, ((rest.map (fun s =>
          s.1 ++ ("./assets/".data ++ s.2.1 ++ '.' :: s.2.2))).flatten ++ gEnd)
          = d :: ds ∧ assetAllowed d = false := by
      cases rest with
      | nil =>
        simp only [List.map_nil, List.flatten_nil, List.nil_append]
        exact hend
      | cons s₂ rest' =>
        obtain ⟨d, ds, hd1, hd2⟩ := hsep s₂ (List.mem_cons_self s₂ rest')
        right
        simp only [List.map_cons, List.flatten_cons]
        rw [hd1, List.cons_append, List.cons_append]
        exact ⟨d, _, rfl, hd2⟩
    have hg := (not_containsSub_iff _ _).mp (hgaps (g, A, E) (List.mem_cons_self _ _))
    have hgA := hA (g, A, E) (List.mem_cons_self _ _)
    have hgE := hE (g, A, E) (List.mem_cons_self _ _)
    have hrec := rewriteGo_segments ex rest gEnd
      (fun s h => hgaps s (List.mem_cons_of_mem _ h)) hgEnd
      (fun s h => hA s (List.mem_cons_of_mem _ h))
      (fun s h => hE s (List.mem_cons_of_mem _ h))
      (fun s h => hsep s (List.mem_of_mem_drop h)) hend
    simp only [List.map_cons, List.flatten_cons]
    have hsh : ((g ++ ("./assets/".data ++ A ++ '.' :: E)) ++ (rest.map (fun s =>
          s.1 ++ ("./assets/".data ++ s.2.1 ++ '.' :: s.2.2))).flatten) ++ gEnd
        = g ++ ("./assets/".data ++ (A ++ '.' :: (E ++ ((rest.map (fun s =>
          s.1 ++ ("./assets/".data ++ s.2.1 ++ '.' :: s.2.2))).flatten ++ gEnd)))) := by
      simp [List.append_assoc]
    rw [hsh, rewriteGo_append_gap ex g _ hg (fun s' hcon => by
        have hdot : '.' = '/' := by injection hcon
        exact absurd hdot (by decide)),
      rewriteGo_occ ex A E _ hgA.1 hgA.2 hgE hpostT, hrec]
    simp [List.append_assoc]

/-- **C4.** `convert_and_rewrite_assets_in_content` handles every occurrence
of a local `./assets/…` path with raster extension `.png`/`.jpg`/`.jpeg`:
an occurrence whose referenced file does not exist stays byte-for-byte
unchanged, and one whose file exists becomes the `.webp` path with the same
directory prefix and stem; all other text passes through verbatim.  The
content is any interleaving of gaps and occurrences where gaps contain no
`./` substring (so no match can start inside them), each occurrence's base
consists of characters the regex class admits and has clean path
components (subdirectories and extra dots in the stem allowed), and each
occurrence is maximal: followed by the end of the content or by a
character outside the regex's admissible class. -/
theorem convert_and_rewrite_assets_spec (ex : String → Bool)
    (segs : List (List Char × List Char × List Char)) (gEnd : List Char)
    (hgaps : ∀ s ∈ segs, containsSub ['.', '/'] s.1 = false)
    (hgEnd : containsSub ['.', '/'] gEnd = false)
    (hA : ∀ s ∈ segs, (∀ c ∈ s.2.1, assetAllowed c = true) ∧
      (∀ q ∈ splitSlash s.2.1, q ≠ [] ∧ q ≠ ['.']))
    (hE : ∀ s ∈ segs, s.2.2 = "png".data ∨ s.2.2 = "jpg".data ∨ s.2.2 = "jpeg".data)
    (hsep : ∀ s ∈ segs.drop 1, ∃ d ds, s.1 = d :: ds ∧ assetAllowed d = false)
    (hend : gEnd = [] ∨ ∃ d ds, gEnd = d :: ds ∧ assetAllowed d = false) :
    convert_and_rewrite_assets_in_content ex
        (String.mk ((segs.map (fun s =>
          s.1 ++ ("./assets/".data ++ s.2.1 ++ '.' :: s.2.2))).flatten ++ gEnd))
      = String.mk ((segs.map (fun s =>
          s.1 ++ (if ex (String.mk ("./assets/".data ++ s.2.1 ++ '.' :: s.2.2))
            then "./assets/".data ++ s.2.1 ++ ".webp".data
            else "./assets/".data ++ s.2.1 ++ '.' :: s.2.2))).flatten ++ gEnd) := by
  unfold convert_and_rewrite_assets_in_content
  exact congrArg String.mk
    (rewriteGo_segments ex segs gEnd hgaps hgEnd hA hE hsep hend)

/-- Witness for C4 at a concrete content string with two occurrences — one
in a subdirectory whose file exists, one with a dotted stem whose file does
not — separated by prose containing periods. -/
theorem convert_and_rewrite_assets_spec_witness :
    convert_and_rewrite_assets_in_content (fun p => p == "./assets/sub/img.png")
        (String.mk (([("see fig. 1 ".data, "sub/img".data, "png".data),
                      (" and ".data, "a.b".data, "jpg".data)].map (fun s =>
          s.1 ++ ("./assets/".data ++ s.2.1 ++ '.' :: s.2.2))).flatten ++ " done.".data))
      = String.mk (([("see fig. 1 ".data, "sub/img".data, "png".data),
                     (" and ".data, "a.b".data, "jpg".data)].map (fun s =>
          s.1 ++ (if (fun p => p == "./assets/sub/img.png")
              (String.mk ("./assets/".data ++ s.2.1 ++ '.' :: s.2.2))
            then "./assets/".data ++ s.2.1 ++ ".webp".data
            else "./assets/".data ++ s.2.1 ++ '.' :: s.2.2))).flatten ++ " done.".data) :=
  convert_and_rewrite_assets_spec _ _ _ (by decide) (by decide) (by decide) (by decide)
    (by
      intro s hs
      have hs' : s = (" and ".data, "a.b".data, "jpg".data) := by simpa using hs
      subst hs'
      exact ⟨' ', "and ".data, rfl, by decide⟩)
    (Or.inr ⟨' ', "done.".data, rfl, by decide⟩)

end AddWeek
